import Mathlib

set_option maxHeartbeats 1000000

/-
Verification development for the Sia unconfirmed-transaction pool
(package transactionpool) and the wallet transaction builder
(package wallet, transactions.go).

The transaction pool's struct and constructor are embedded from
transactionpool.go.  The mutating operations (Accept, the resync
protocol, the update log readers) are not part of the provided
sources; they are modelled from the specification, as marked on each
definition.  Go maps are embedded as `Finmap`, whose equality is
extensional (key/value agreement), matching Go map semantics.
Ids of outputs, contracts and siafund outputs are abstracted as `Nat`,
one namespace per kind (each kind lives in its own map, as in the
source struct).  The `mu` lock and the `subscribers` channel slice are
runtime concurrency artifacts and are not part of the state model.
-/

namespace SiaPool

/-- Map from ids to values, embedding Go `map[ID]Value`. -/
abbrev NMap := Finmap (fun _ : Nat => Nat)

/-- A transaction as the pool sees it: per kind (siacoin outputs, file
contracts, siafund outputs) the ids it consumes and the (id, value)
pairs it creates, plus miner fees and arbitrary data.  Identity is the
content hash, abstracted as `tid`. -/
structure Txn where
  tid : Nat
  scConsumed : List Nat
  scCreated : List (Nat × Nat)
  fcConsumed : List Nat
  fcCreated : List (Nat × Nat)
  sfConsumed : List Nat
  sfCreated : List (Nat × Nat)
  fees : Nat
  arbitraryData : List String
deriving DecidableEq

/-- Embeds consensus.SiacoinOutputDiff: a flag for addition/removal,
the output id and the output value. -/
structure SCDiff where
  newDiff : Bool
  oid : Nat
  value : Nat
deriving DecidableEq

/-- A block as the pool sees it: its transactions and, per kind, the
output-map diffs the pool rebases against (outputs the block created
and outputs it spent, with values so that reverting can restore them). -/
structure Block where
  bid : Nat
  btxns : List Txn
  scCreatedDiff : List (Nat × Nat)
  scSpentDiff : List (Nat × Nat)
  fcCreatedDiff : List (Nat × Nat)
  fcSpentDiff : List (Nat × Nat)
  sfCreatedDiff : List (Nat × Nat)
  sfSpentDiff : List (Nat × Nat)
deriving DecidableEq

/-- Embedding of the TransactionPool struct of transactionpool.go.
The four update slices are the parallel per-mutation history.  The
`mu` lock and `subscribers` fields are omitted (runtime concurrency). -/
@[ext]
structure TransactionPool where
  consensusSet : Option Nat
  gateway : Option Nat
  consensusSetHeight : Nat
  transactions : Finmap (fun _ : Nat => Txn)
  transactionList : List Txn
  siacoinOutputs : NMap
  fileContracts : NMap
  siafundOutputs : NMap
  referenceSiacoinOutputs : NMap
  referenceFileContracts : NMap
  referenceSiafundOutputs : NMap
  revertBlocksUpdates : List (List Block)
  applyBlocksUpdates : List (List Block)
  unconfirmedTransactions : List (List Txn)
  unconfirmedSiacoinDiffs : List (List SCDiff)

/-- The pool as initialized by New: empty maps, empty sequence, empty
history, the injected collaborators stored. -/
def initialPool (cs g : Option Nat) : TransactionPool where
  consensusSet := cs
  gateway := g
  consensusSetHeight := 0
  transactions := ∅
  transactionList := []
  siacoinOutputs := ∅
  fileContracts := ∅
  siafundOutputs := ∅
  referenceSiacoinOutputs := ∅
  referenceFileContracts := ∅
  referenceSiafundOutputs := ∅
  revertBlocksUpdates := []
  applyBlocksUpdates := []
  unconfirmedTransactions := []
  unconfirmedSiacoinDiffs := []

/-- Result of the constructor New: the returned pool pointer, the
returned error, and whether cs.Subscribe(tp) was executed. -/
structure NewResult where
  tp : Option TransactionPool
  err : Option String
  subscribed : Bool

/-- Embedding of New from transactionpool.go.  Mirrors the source
control flow exactly: a nil consensus set returns early with an error;
a nil gateway sets the error but does not return, so the pool is still
constructed and subscribed to the consensus set. -/
def New (cs g : Option Nat) : NewResult :=
  match cs with
  | none => { tp := none, err := some "transaction pool cannot use a nil state", subscribed := false }
  | some _ =>
    let err : Option String :=
      match g with
      | none => some "transaction pool cannot use a nil gateway"
      | some _ => none
    { tp := some (initialPool cs g), err := err, subscribed := true }

/-- Rejection reasons of Accept, from the error taxonomy of the spec. -/
inductive Reason
  | unknownInput
  | doubleSpend
  | malformedTransaction
deriving DecidableEq

/-- Modelled from the spec: per-kind validation of Accept (the Accept
implementation is not in the provided sources).  Inputs must reference
ids present in the current output map, must not be double spends
(already-consumed ids sit in the reference map), and created ids must
be fresh. -/
def checkKind (consumed : List Nat) (created : List (Nat × Nat)) (m r : NMap) : Option Reason :=
  if ¬ consumed.Nodup then some .doubleSpend
  else if ∃ c ∈ consumed, (r.lookup c).isSome then some .doubleSpend
  else if ¬ ∀ c ∈ consumed, (m.lookup c).isSome then some .unknownInput
  else if ¬ ((created.map Prod.fst).Nodup ∧
      ∀ kv ∈ created, m.lookup kv.1 = none ∧ r.lookup kv.1 = none) then
    some .malformedTransaction
  else none

/-- Sum of the siacoin values a transaction consumes from the pool's
current unconfirmed siacoin output map. -/
def scConsumedSum (p : TransactionPool) (t : Txn) : Nat :=
  (t.scConsumed.map (fun c => (p.siacoinOutputs.lookup c).getD 0)).sum

/-- Sum of the siafund values a transaction consumes. -/
def sfConsumedSum (p : TransactionPool) (t : Txn) : Nat :=
  (t.sfConsumed.map (fun c => (p.siafundOutputs.lookup c).getD 0)).sum

/-- Modelled from the spec: full validation of a transaction against
the current unconfirmed view (duplicate-id check, the three per-kind
checks, and value-conservation arithmetic). -/
def checkTxn (p : TransactionPool) (t : Txn) : Option Reason :=
  if (p.transactions.lookup t.tid).isSome then some .malformedTransaction
  else match checkKind t.scConsumed t.scCreated p.siacoinOutputs p.referenceSiacoinOutputs with
  | some r => some r
  | none => match checkKind t.fcConsumed t.fcCreated p.fileContracts p.referenceFileContracts with
    | some r => some r
    | none => match checkKind t.sfConsumed t.sfCreated p.siafundOutputs p.referenceSiafundOutputs with
      | some r => some r
      | none =>
        if scConsumedSum p t = (t.scCreated.map Prod.snd).sum + t.fees ∧
            sfConsumedSum p t = (t.sfCreated.map Prod.snd).sum then none
        else some .malformedTransaction

/-- A transaction is valid when validation produces no rejection. -/
def validTxn (p : TransactionPool) (t : Txn) : Bool :=
  (checkTxn p t).isNone

/-- Move each consumed id out of the output map into the reference map,
keeping its value. -/
def spendKind (consumed : List Nat) (mr : NMap × NMap) : NMap × NMap :=
  consumed.foldl (fun mr c =>
    match mr.1.lookup c with
    | some v => (mr.1.erase c, mr.2.insert c v)
    | none => mr) mr

/-- Insert every created (id, value) pair into the output map. -/
def addKind (created : List (Nat × Nat)) (m : NMap) : NMap :=
  created.foldl (fun m kv => m.insert kv.1 kv.2) m

/-- Erase every listed (id, value) pair's id from the map. -/
def removeKind (created : List (Nat × Nat)) (m : NMap) : NMap :=
  created.foldl (fun m kv => m.erase kv.1) m

/-- Move each consumed id back out of the reference map into the
output map (inverse of spendKind). -/
def unspendKind (consumed : List Nat) (mr : NMap × NMap) : NMap × NMap :=
  consumed.foldl (fun mr c =>
    match mr.2.lookup c with
    | some v => (mr.1.insert c v, mr.2.erase c)
    | none => mr) mr

/-- Modelled from the spec: the state mutation of a successful Accept.
Consumed outputs move into the reference maps, created outputs enter
the output maps, the transaction is appended at the tail of the
sequence and recorded in the id map.  The update history is appended
separately by Accept (the resync protocol re-adds transactions without
per-transaction history entries). -/
def acceptCore (p : TransactionPool) (t : Txn) : TransactionPool :=
  let sc := spendKind t.scConsumed (p.siacoinOutputs, p.referenceSiacoinOutputs)
  let fc := spendKind t.fcConsumed (p.fileContracts, p.referenceFileContracts)
  let sf := spendKind t.sfConsumed (p.siafundOutputs, p.referenceSiafundOutputs)
  { p with
    transactions := p.transactions.insert t.tid t
    transactionList := p.transactionList ++ [t]
    siacoinOutputs := addKind t.scCreated sc.1
    referenceSiacoinOutputs := sc.2
    fileContracts := addKind t.fcCreated fc.1
    referenceFileContracts := fc.2
    siafundOutputs := addKind t.sfCreated sf.1
    referenceSiafundOutputs := sf.2 }

/-- The siacoin diffs of accepting one transaction: removals of its
consumed outputs (with their current values) and additions of its
created outputs. -/
def acceptSCDiffs (p : TransactionPool) (t : Txn) : List SCDiff :=
  t.scConsumed.map (fun c => ⟨false, c, (p.siacoinOutputs.lookup c).getD 0⟩)
    ++ t.scCreated.map (fun kv => ⟨true, kv.1, kv.2⟩)

/-- Append one atomic entry to the four parallel update-history slices
of the pool struct. -/
def appendLog (p : TransactionPool) (rev app : List Block) (seq : List Txn)
    (ds : List SCDiff) : TransactionPool :=
  { p with
    revertBlocksUpdates := p.revertBlocksUpdates ++ [rev]
    applyBlocksUpdates := p.applyBlocksUpdates ++ [app]
    unconfirmedTransactions := p.unconfirmedTransactions ++ [seq]
    unconfirmedSiacoinDiffs := p.unconfirmedSiacoinDiffs ++ [ds] }

/-- Modelled from the spec: Accept validates against the current view;
on rejection it returns the reason and leaves the pool untouched; on
success it applies the mutation and appends one update-history entry
with the incremental diff. -/
def Accept (p : TransactionPool) (t : Txn) : TransactionPool × Option Reason :=
  match checkTxn p t with
  | some r => (p, some r)
  | none =>
    let q := acceptCore p t
    (appendLog q [] [] q.transactionList (acceptSCDiffs p t), none)

/-- Modelled from the spec: Undo (internal-only) removes the
transaction from the sequence and id map, removes the outputs it
created from the output maps, and reinstates the reference-set objects
it had consumed.  Used by the resync engine from the tail backward. -/
def undoTxn (p : TransactionPool) (t : Txn) : TransactionPool :=
  let sc := unspendKind t.scConsumed
    (removeKind t.scCreated p.siacoinOutputs, p.referenceSiacoinOutputs)
  let fc := unspendKind t.fcConsumed
    (removeKind t.fcCreated p.fileContracts, p.referenceFileContracts)
  let sf := unspendKind t.sfConsumed
    (removeKind t.sfCreated p.siafundOutputs, p.referenceSiafundOutputs)
  { p with
    transactions := p.transactions.erase t.tid
    transactionList := p.transactionList.erase t
    siacoinOutputs := sc.1
    referenceSiacoinOutputs := sc.2
    fileContracts := fc.1
    referenceFileContracts := fc.2
    siafundOutputs := sf.1
    referenceSiafundOutputs := sf.2 }

/-- Modelled from the spec: the Reverting step undoes every
unconfirmed transaction from tail to head. -/
def undoAll (p : TransactionPool) : TransactionPool :=
  p.transactionList.reverse.foldl undoTxn p

/-- Apply a confirmed block's per-kind diff forward: add the outputs
it created, remove the outputs it spent. -/
def applyBlockKind (created spent : List (Nat × Nat)) (m : NMap) : NMap :=
  removeKind spent (addKind created m)

/-- Apply a confirmed block's per-kind diff in reverse: remove the
outputs it created, restore the outputs it spent. -/
def revertBlockKind (created spent : List (Nat × Nat)) (m : NMap) : NMap :=
  addKind spent (removeKind created m)

/-- Modelled from the spec: the Rebasing step applies the diffs of the
reverted blocks in reverse (given most-recent-first) and then the
diffs of the applied blocks forward (given oldest-first), verbatim. -/
def rebaseMaps (b : NMap × NMap × NMap) (rev app : List Block) : NMap × NMap × NMap :=
  let afterRev := rev.foldl (fun b blk =>
    (revertBlockKind blk.scCreatedDiff blk.scSpentDiff b.1,
     revertBlockKind blk.fcCreatedDiff blk.fcSpentDiff b.2.1,
     revertBlockKind blk.sfCreatedDiff blk.sfSpentDiff b.2.2)) b
  app.foldl (fun b blk =>
    (applyBlockKind blk.scCreatedDiff blk.scSpentDiff b.1,
     applyBlockKind blk.fcCreatedDiff blk.fcSpentDiff b.2.1,
     applyBlockKind blk.sfCreatedDiff blk.sfSpentDiff b.2.2)) afterRev

/-- Rebase the pool's three output maps against the ledger change. -/
def rebase (p : TransactionPool) (rev app : List Block) : TransactionPool :=
  let b := rebaseMaps (p.siacoinOutputs, p.fileContracts, p.siafundOutputs) rev app
  { p with siacoinOutputs := b.1, fileContracts := b.2.1, siafundOutputs := b.2.2 }

/-- Re-insert one transaction during the Readding step: validate
exactly as Accept does, drop it silently on failure. -/
def tryAcceptCore (p : TransactionPool) (t : Txn) : TransactionPool :=
  if validTxn p t then acceptCore p t else p

/-- Replay a list of transactions through acceptCore without
validation (used for stating the replay invariant). -/
def replayFrom (p : TransactionPool) (l : List Txn) : TransactionPool :=
  l.foldl acceptCore p

/-- Re-insert a list of transactions in order, dropping the invalid. -/
def readdAll (p : TransactionPool) (l : List Txn) : TransactionPool :=
  l.foldl tryAcceptCore p

/-- The sub-list of transactions that survive sequential re-insertion
starting from state p. -/
def acceptedOf (p : TransactionPool) : List Txn → List Txn
  | [] => []
  | t :: ts => if validTxn p t then t :: acceptedOf (acceptCore p t) ts else acceptedOf p ts

/-- Re-insert transactions in order, collecting the siacoin diffs the
surviving insertions produce. -/
def tryAcceptDiffs (p : TransactionPool) : List Txn → TransactionPool × List SCDiff
  | [] => (p, [])
  | t :: ts =>
    if validTxn p t then
      let ds := acceptSCDiffs p t
      let r := tryAcceptDiffs (acceptCore p t) ts
      (r.1, ds ++ r.2)
    else tryAcceptDiffs p ts

/-- The transactions of the reverted blocks, oldest reverted block
first (the reverted list arrives most-recent-first), preserving their
original relative order inside each block. -/
def revertedTxns (rev : List Block) : List Txn :=
  (rev.reverse.map Block.btxns).flatten

/-- Siacoin diffs of the Rebasing step, read off the block diffs. -/
def blockRevertSCDiffs (b : Block) : List SCDiff :=
  b.scCreatedDiff.map (fun kv => ⟨false, kv.1, kv.2⟩)
    ++ b.scSpentDiff.map (fun kv => ⟨true, kv.1, kv.2⟩)

/-- Siacoin diffs of applying one block forward. -/
def blockApplySCDiffs (b : Block) : List SCDiff :=
  b.scSpentDiff.map (fun kv => ⟨false, kv.1, kv.2⟩)
    ++ b.scCreatedDiff.map (fun kv => ⟨true, kv.1, kv.2⟩)

/-- All siacoin diffs of the Rebasing step. -/
def rebaseSCDiffs (rev app : List Block) : List SCDiff :=
  (rev.map blockRevertSCDiffs).flatten ++ (app.map blockApplySCDiffs).flatten

/-- Modelled from the spec: the resync protocol (ResyncEngine, driven
by the consensus change notification).  Revert every unconfirmed
transaction from tail to head, rebase the output maps against the
block diffs, re-add first the transactions of the reverted blocks and
then the previously-unconfirmed snapshot (dropping any that fail
re-validation), and append one update-history entry for the whole
operation. -/
def update (p : TransactionPool) (rev app : List Block) : TransactionPool :=
  let snapshot := p.transactionList
  let p1 := undoAll p
  let p2 := rebase p1 rev app
  let r := tryAcceptDiffs p2 (revertedTxns rev ++ snapshot)
  appendLog r.1 rev app r.1.transactionList (rebaseSCDiffs rev app ++ r.2)

/-- Modelled from the spec: ReadFrom returns the update-history
entries from the given cursor on, in append order. -/
def ReadFrom (p : TransactionPool) (cursor : Nat) :
    List (List Block) × List (List Block) × List (List Txn) × List (List SCDiff) :=
  (p.revertBlocksUpdates.drop cursor, p.applyBlocksUpdates.drop cursor,
   p.unconfirmedTransactions.drop cursor, p.unconfirmedSiacoinDiffs.drop cursor)

/-- A mutation of the pool: an external Accept or a ledger-driven
resync. -/
inductive PoolOp
  | acc (t : Txn)
  | res (rev app : List Block)

/-- Apply one mutation. -/
def applyOp (p : TransactionPool) : PoolOp → TransactionPool
  | .acc t => (Accept p t).1
  | .res rev app => update p rev app

/-- The reachable states of the pool: every sequence of Accept and
resync operations starting from a freshly constructed pool. -/
inductive Reachable : TransactionPool → Prop
  | init (cs g : Option Nat) : Reachable (initialPool cs g)
  | step {p : TransactionPool} (op : PoolOp) : Reachable p → Reachable (applyOp p op)

/-- Unfolding lemma for addKind. -/
theorem addKind_cons (kv : Nat × Nat) (rest : List (Nat × Nat)) (m : NMap) :
    addKind (kv :: rest) m = addKind rest (m.insert kv.1 kv.2) := rfl

/-- Unfolding lemma for removeKind. -/
theorem removeKind_cons (kv : Nat × Nat) (rest : List (Nat × Nat)) (m : NMap) :
    removeKind (kv :: rest) m = removeKind rest (m.erase kv.1) := rfl

/-- Unfolding lemma for spendKind when the consumed id is present. -/
theorem spendKind_cons_some {c : Nat} {v : Nat} {m r : NMap} (rest : List Nat)
    (h : m.lookup c = some v) :
    spendKind (c :: rest) (m, r) = spendKind rest (m.erase c, r.insert c v) := by
  simp [spendKind, h]

/-- Unfolding lemma for spendKind when the consumed id is absent. -/
theorem spendKind_cons_none {c : Nat} {m r : NMap} (rest : List Nat)
    (h : m.lookup c = none) :
    spendKind (c :: rest) (m, r) = spendKind rest (m, r) := by
  simp [spendKind, h]

/-- Unfolding lemma for unspendKind when the id sits in the reference map. -/
theorem unspendKind_cons_some {c : Nat} {v : Nat} {m r : NMap} (rest : List Nat)
    (h : r.lookup c = some v) :
    unspendKind (c :: rest) (m, r) = unspendKind rest (m.insert c v, r.erase c) := by
  simp [unspendKind, h]

/-- Erasing a freshly inserted key restores the original map. -/
theorem fin_erase_insert {α : Type} [DecidableEq α] {β : α → Type} (s : Finmap β) (a : α)
    (b : β a) (h : s.lookup a = none) : (s.insert a b).erase a = s := by
  apply Finmap.ext_lookup
  intro x
  by_cases hx : x = a
  · subst hx
    rw [Finmap.lookup_erase, h]
  · rw [Finmap.lookup_erase_ne hx, Finmap.lookup_insert_of_ne _ hx]

/-- addKind does not change keys outside the created list. -/
theorem addKind_lookup_not_mem (created : List (Nat × Nat)) (m : NMap) (x : Nat)
    (hx : x ∉ created.map Prod.fst) : (addKind created m).lookup x = m.lookup x := by
  induction created generalizing m with
  | nil => rfl
  | cons kv rest ih =>
    simp only [List.map_cons, List.mem_cons, not_or] at hx
    rw [addKind_cons, ih _ hx.2, Finmap.lookup_insert_of_ne _ hx.1]

/-- removeKind does not change keys outside the removed list. -/
theorem removeKind_lookup_not_mem (created : List (Nat × Nat)) (m : NMap) (x : Nat)
    (hx : x ∉ created.map Prod.fst) : (removeKind created m).lookup x = m.lookup x := by
  induction created generalizing m with
  | nil => rfl
  | cons kv rest ih =>
    simp only [List.map_cons, List.mem_cons, not_or] at hx
    rw [removeKind_cons, ih _ hx.2, Finmap.lookup_erase_ne hx.1]

/-- removeKind removes every listed key. -/
theorem removeKind_lookup_mem (created : List (Nat × Nat)) (m : NMap) (x : Nat)
    (hx : x ∈ created.map Prod.fst) : (removeKind created m).lookup x = none := by
  induction created generalizing m with
  | nil => simp at hx
  | cons kv rest ih =>
    rw [removeKind_cons]
    by_cases hxr : x ∈ rest.map Prod.fst
    · exact ih _ hxr
    · simp only [List.map_cons, List.mem_cons] at hx
      have hxk : x = kv.1 := hx.resolve_right hxr
      subst hxk
      rw [removeKind_lookup_not_mem _ _ _ hxr, Finmap.lookup_erase]

/-- Removing the freshly added keys of addKind restores the map. -/
theorem removeKind_addKind (created : List (Nat × Nat)) (m : NMap)
    (hfresh : ∀ kv ∈ created, m.lookup kv.1 = none) :
    removeKind created (addKind created m) = m := by
  apply Finmap.ext_lookup
  intro x
  by_cases hx : x ∈ created.map Prod.fst
  · rw [removeKind_lookup_mem _ _ _ hx]
    obtain ⟨kv, hkv, hfst⟩ := List.mem_map.mp hx
    rw [← hfst]
    exact (hfresh kv hkv).symm
  · rw [removeKind_lookup_not_mem _ _ _ hx, addKind_lookup_not_mem _ _ _ hx]

/-- Pointwise description of spendKind: consumed ids leave the output
map and land in the reference map with their values. -/
theorem spendKind_lookup (consumed : List Nat) (m r : NMap)
    (hd : consumed.Nodup) (hp : ∀ c ∈ consumed, (m.lookup c).isSome) :
    (∀ x, (spendKind consumed (m, r)).1.lookup x =
        if x ∈ consumed then none else m.lookup x) ∧
    (∀ x, (spendKind consumed (m, r)).2.lookup x =
        if x ∈ consumed then m.lookup x else r.lookup x) := by
  induction consumed generalizing m r with
  | nil => simp [spendKind]
  | cons c rest ih =>
    obtain ⟨hcr, hdr⟩ := List.nodup_cons.mp hd
    obtain ⟨v, hv⟩ := Option.isSome_iff_exists.mp (hp c (List.mem_cons_self c rest))
    have hmem : ∀ c' ∈ rest, ((m.erase c).lookup c').isSome := by
      intro c' hc'
      rw [Finmap.lookup_erase_ne (fun h => hcr (by rw [← h]; exact hc'))]
      exact hp c' (List.mem_cons_of_mem _ hc')
    have ih' := ih (m.erase c) (r.insert c v) hdr hmem
    rw [spendKind_cons_some rest hv]
    constructor
    · intro x
      rw [ih'.1 x]
      by_cases hx : x = c
      · subst hx
        simp [hcr, Finmap.lookup_erase]
      · by_cases hxr : x ∈ rest
        · simp [hxr, List.mem_cons]
        · simp [hxr, hx, Finmap.lookup_erase_ne hx]
    · intro x
      rw [ih'.2 x]
      by_cases hx : x = c
      · subst hx
        simp [hcr, Finmap.lookup_insert, hv]
      · by_cases hxr : x ∈ rest
        · simp [hxr, hx, Finmap.lookup_erase_ne hx, List.mem_cons]
        · simp [hxr, hx, Finmap.lookup_insert_of_ne _ hx, List.mem_cons]

/-- Pointwise description of unspendKind: consumed ids leave the
reference map and return to the output map with their values. -/
theorem unspendKind_lookup (consumed : List Nat) (m r : NMap)
    (hd : consumed.Nodup) (hp : ∀ c ∈ consumed, (r.lookup c).isSome) :
    (∀ x, (unspendKind consumed (m, r)).1.lookup x =
        if x ∈ consumed then r.lookup x else m.lookup x) ∧
    (∀ x, (unspendKind consumed (m, r)).2.lookup x =
        if x ∈ consumed then none else r.lookup x) := by
  induction consumed generalizing m r with
  | nil => simp [unspendKind]
  | cons c rest ih =>
    obtain ⟨hcr, hdr⟩ := List.nodup_cons.mp hd
    obtain ⟨v, hv⟩ := Option.isSome_iff_exists.mp (hp c (List.mem_cons_self c rest))
    have hmem : ∀ c' ∈ rest, ((r.erase c).lookup c').isSome := by
      intro c' hc'
      rw [Finmap.lookup_erase_ne (fun h => hcr (by rw [← h]; exact hc'))]
      exact hp c' (List.mem_cons_of_mem _ hc')
    have ih' := ih (m.insert c v) (r.erase c) hdr hmem
    rw [unspendKind_cons_some rest hv]
    constructor
    · intro x
      rw [ih'.1 x]
      by_cases hx : x = c
      · subst hx
        simp [hcr, Finmap.lookup_insert, hv]
      · by_cases hxr : x ∈ rest
        · simp [hxr, hx, Finmap.lookup_erase_ne hx, List.mem_cons]
        · simp [hxr, hx, Finmap.lookup_insert_of_ne _ hx, List.mem_cons]
    · intro x
      rw [ih'.2 x]
      by_cases hx : x = c
      · subst hx
        simp [hcr, Finmap.lookup_erase]
      · by_cases hxr : x ∈ rest
        · simp [hxr, List.mem_cons]
        · simp [hxr, hx, Finmap.lookup_erase_ne hx]

/-- spendKind never removes reference-map entries. -/
theorem spendKind_snd_mono (consumed : List Nat) (m r : NMap) (x : Nat)
    (hx : (r.lookup x).isSome) : (((spendKind consumed (m, r)).2).lookup x).isSome := by
  induction consumed generalizing m r with
  | nil => exact hx
  | cons c rest ih =>
    rcases hm : m.lookup c with _ | v
    · rw [spendKind_cons_none rest hm]
      exact ih m r hx
    · rw [spendKind_cons_some rest hm]
      apply ih
      by_cases hxc : x = c
      · subst hxc
        rw [Finmap.lookup_insert]
        rfl
      · rw [Finmap.lookup_insert_of_ne _ hxc]
        exact hx

/-- Extract the conjuncts guaranteed by a passing per-kind check. -/
theorem checkKind_none_parts {consumed : List Nat} {created : List (Nat × Nat)} {m r : NMap}
    (h : checkKind consumed created m r = none) :
    consumed.Nodup ∧ (∀ c ∈ consumed, r.lookup c = none) ∧
    (∀ c ∈ consumed, (m.lookup c).isSome) ∧
    (created.map Prod.fst).Nodup ∧
    (∀ kv ∈ created, m.lookup kv.1 = none ∧ r.lookup kv.1 = none) := by
  unfold checkKind at h
  split_ifs at h with h1 h2 h3 h4
  push_neg at h2
  exact ⟨h1, fun c hc => Option.not_isSome_iff_eq_none.mp (h2 c hc), h3, h4.1, h4.2⟩

/-- Extract the per-kind checks and id-map freshness from validity. -/
theorem validTxn_parts {p : TransactionPool} {t : Txn} (h : validTxn p t = true) :
    p.transactions.lookup t.tid = none ∧
    checkKind t.scConsumed t.scCreated p.siacoinOutputs p.referenceSiacoinOutputs = none ∧
    checkKind t.fcConsumed t.fcCreated p.fileContracts p.referenceFileContracts = none ∧
    checkKind t.sfConsumed t.sfCreated p.siafundOutputs p.referenceSiafundOutputs = none := by
  unfold validTxn checkTxn at h
  by_cases h1 : (Finmap.lookup t.tid p.transactions).isSome
  · rw [if_pos h1] at h
    simp at h
  · rw [if_neg h1] at h
    refine ⟨Option.not_isSome_iff_eq_none.mp h1, ?_⟩
    split at h
    · next r heq => simp at h
    · next hsc =>
      refine ⟨hsc, ?_⟩
      split at h
      · next r heq => simp at h
      · next hfc =>
        refine ⟨hfc, ?_⟩
        split at h
        · next r heq => simp at h
        · next hsf => exact hsf

/-- Every transaction in the sequence is registered in the id map. -/
def IdMapInv (p : TransactionPool) : Prop :=
  ∀ t' ∈ p.transactionList, (p.transactions.lookup t'.tid).isSome

/-- acceptCore keeps every sequence member registered in the id map. -/
theorem idMapInv_acceptCore {p : TransactionPool} {t : Txn}
    (h : IdMapInv p) : IdMapInv (acceptCore p t) := by
  intro t' ht'
  show ((p.transactions.insert t.tid t).lookup t'.tid).isSome
  by_cases hx : t'.tid = t.tid
  · rw [hx, Finmap.lookup_insert]
    rfl
  · rw [Finmap.lookup_insert_of_ne _ hx]
    have ht'' : t' ∈ p.transactionList := by
      have : t' ∈ p.transactionList ++ [t] := ht'
      rcases List.mem_append.mp this with h1 | h1
      · exact h1
      · exfalso
        simp at h1
        exact hx (by rw [h1])
    exact h t' ht''

/-- A valid transaction is not already in the sequence. -/
theorem valid_not_mem {p : TransactionPool} {t : Txn}
    (hv : validTxn p t = true) (hid : IdMapInv p) : t ∉ p.transactionList := by
  intro hmem
  have h1 := (validTxn_parts hv).1
  have h2 := hid t hmem
  rw [h1] at h2
  simp at h2

/-- Undoing one spent kind (after removing the created outputs)
restores the output and reference maps of that kind exactly. -/
theorem spend_unspend_cancel (consumed : List Nat) (created : List (Nat × Nat)) (m r : NMap)
    (hk : checkKind consumed created m r = none) :
    unspendKind consumed
      (removeKind created (addKind created (spendKind consumed (m, r)).1),
        (spendKind consumed (m, r)).2) = (m, r) := by
  obtain ⟨hd, hrnone, hp, hcnod, hfresh⟩ := checkKind_none_parts hk
  have hchar := spendKind_lookup consumed m r hd hp
  have hrhold : ∀ c ∈ consumed, (((spendKind consumed (m, r)).2).lookup c).isSome := by
    intro c hc
    rw [hchar.2 c, if_pos hc]
    exact hp c hc
  have huchar := unspendKind_lookup consumed
    (removeKind created (addKind created (spendKind consumed (m, r)).1))
    ((spendKind consumed (m, r)).2) hd hrhold
  have hfst : (unspendKind consumed
      (removeKind created (addKind created (spendKind consumed (m, r)).1),
        (spendKind consumed (m, r)).2)).1 = m := by
    apply Finmap.ext_lookup
    intro x
    rw [huchar.1 x]
    by_cases hx : x ∈ consumed
    · rw [if_pos hx, hchar.2 x, if_pos hx]
    · rw [if_neg hx]
      by_cases hxk : x ∈ created.map Prod.fst
      · rw [removeKind_lookup_mem _ _ _ hxk]
        obtain ⟨kv, hkv, hfst⟩ := List.mem_map.mp hxk
        rw [← hfst]
        exact ((hfresh kv hkv).1).symm
      · rw [removeKind_lookup_not_mem _ _ _ hxk, addKind_lookup_not_mem _ _ _ hxk,
          hchar.1 x, if_neg hx]
  have hsnd : (unspendKind consumed
      (removeKind created (addKind created (spendKind consumed (m, r)).1),
        (spendKind consumed (m, r)).2)).2 = r := by
    apply Finmap.ext_lookup
    intro x
    rw [huchar.2 x]
    by_cases hx : x ∈ consumed
    · rw [if_pos hx, hrnone x hx]
    · rw [if_neg hx, hchar.2 x, if_neg hx]
  exact Prod.ext hfst hsnd

/-- Undo is a two-sided inverse of a valid accept: undoing the freshly
accepted transaction restores the pool exactly. -/
theorem undoTxn_acceptCore {p : TransactionPool} {t : Txn}
    (hv : validTxn p t = true) (hnm : t ∉ p.transactionList) :
    undoTxn (acceptCore p t) t = p := by
  obtain ⟨htid, hsc, hfc, hsf⟩ := validTxn_parts hv
  have hsc' := spend_unspend_cancel _ _ _ _ hsc
  have hfc' := spend_unspend_cancel _ _ _ _ hfc
  have hsf' := spend_unspend_cancel _ _ _ _ hsf
  apply TransactionPool.ext
  · rfl
  · rfl
  · rfl
  · exact fin_erase_insert _ _ _ htid
  · show (p.transactionList ++ [t]).erase t = p.transactionList
    rw [List.erase_append_right _ (by simpa using hnm), List.erase_cons_head, List.append_nil]
  · exact congrArg Prod.fst hsc'
  · exact congrArg Prod.fst hfc'
  · exact congrArg Prod.fst hsf'
  · exact congrArg Prod.snd hsc'
  · exact congrArg Prod.snd hfc'
  · exact congrArg Prod.snd hsf'
  · rfl
  · rfl
  · rfl
  · rfl

/-- A chain of transactions each valid at its point of insertion. -/
def okChain (p : TransactionPool) : List Txn → Prop
  | [] => True
  | t :: ts => validTxn p t = true ∧ okChain (acceptCore p t) ts

/-- Unfolding lemma for replayFrom. -/
theorem replayFrom_cons (p : TransactionPool) (t : Txn) (l : List Txn) :
    replayFrom p (t :: l) = replayFrom (acceptCore p t) l := rfl

/-- replayFrom splits over append. -/
theorem replayFrom_append (p : TransactionPool) (l₁ l₂ : List Txn) :
    replayFrom p (l₁ ++ l₂) = replayFrom (replayFrom p l₁) l₂ :=
  List.foldl_append _ _ _ _

/-- okChain splits over append. -/
theorem okChain_append (p : TransactionPool) (l₁ l₂ : List Txn) :
    okChain p (l₁ ++ l₂) ↔ okChain p l₁ ∧ okChain (replayFrom p l₁) l₂ := by
  induction l₁ generalizing p with
  | nil => simp [okChain, replayFrom]
  | cons t ts ih =>
    simp only [List.cons_append, okChain, replayFrom_cons, List.append_eq, ih, and_assoc]

/-- Replaying appends exactly the replayed transactions to the sequence. -/
theorem replayFrom_transactionList (p : TransactionPool) (l : List Txn) :
    (replayFrom p l).transactionList = p.transactionList ++ l := by
  induction l generalizing p with
  | nil => simp [replayFrom]
  | cons t ts ih =>
    rw [replayFrom_cons, ih]
    show (p.transactionList ++ [t]) ++ ts = p.transactionList ++ t :: ts
    simp

/-- An invariant preserved by valid accepts is preserved by replay. -/
theorem replayFrom_inv {P : TransactionPool → Prop}
    (hstep : ∀ p t, validTxn p t = true → P p → P (acceptCore p t)) :
    ∀ (l : List Txn) (p : TransactionPool), okChain p l → P p → P (replayFrom p l) := by
  intro l
  induction l with
  | nil => exact fun p _ hp => hp
  | cons t ts ih => exact fun p hok hp => ih _ hok.2 (hstep p t hok.1 hp)

/-- undoAll on a pool with an empty sequence does nothing. -/
theorem undoAll_nilList {p : TransactionPool} (h : p.transactionList = []) :
    undoAll p = p := by
  unfold undoAll
  rw [h]
  rfl

/-- The Reverting step exactly undoes a replayed chain: undoing from
the tail backward lands on the base state. -/
theorem undoAll_replayFrom (q : TransactionPool)
    (hnil : q.transactionList = []) (hid : IdMapInv q) :
    ∀ l, okChain q l → undoAll (replayFrom q l) = q := by
  intro l
  induction l using List.reverseRecOn with
  | nil => exact fun _ => undoAll_nilList hnil
  | append_singleton l t ih =>
    intro hok
    obtain ⟨hokl, hvt, -⟩ := (okChain_append q l [t]).mp hok
    have hidR : IdMapInv (replayFrom q l) :=
      replayFrom_inv (fun p t _ hp => idMapInv_acceptCore hp) l q hokl hid
    have hnotmem : t ∉ (replayFrom q l).transactionList := valid_not_mem hvt hidR
    rw [replayFrom_append]
    show undoAll (acceptCore (replayFrom q l) t) = q
    unfold undoAll
    rw [show (acceptCore (replayFrom q l) t).transactionList
        = (replayFrom q l).transactionList ++ [t] from rfl]
    rw [List.reverse_append, List.reverse_singleton, List.singleton_append, List.foldl_cons,
      undoTxn_acceptCore hvt hnotmem]
    exact ih hokl

/-- Equality of the shared-state view: the unconfirmed sequence, the
id map, the three output maps and the three reference maps (the update
history and the collaborator fields may differ). -/
def ViewEq (p q : TransactionPool) : Prop :=
  p.transactionList = q.transactionList ∧
  p.transactions = q.transactions ∧
  p.siacoinOutputs = q.siacoinOutputs ∧
  p.fileContracts = q.fileContracts ∧
  p.siafundOutputs = q.siafundOutputs ∧
  p.referenceSiacoinOutputs = q.referenceSiacoinOutputs ∧
  p.referenceFileContracts = q.referenceFileContracts ∧
  p.referenceSiafundOutputs = q.referenceSiafundOutputs

/-- ViewEq is reflexive. -/
theorem viewEq_refl (p : TransactionPool) : ViewEq p p :=
  ⟨rfl, rfl, rfl, rfl, rfl, rfl, rfl, rfl⟩

/-- ViewEq is transitive. -/
theorem viewEq_trans {p q s : TransactionPool} (h : ViewEq p q) (h' : ViewEq q s) :
    ViewEq p s :=
  ⟨h.1.trans h'.1, h.2.1.trans h'.2.1, h.2.2.1.trans h'.2.2.1, h.2.2.2.1.trans h'.2.2.2.1,
    h.2.2.2.2.1.trans h'.2.2.2.2.1, h.2.2.2.2.2.1.trans h'.2.2.2.2.2.1,
    h.2.2.2.2.2.2.1.trans h'.2.2.2.2.2.2.1, h.2.2.2.2.2.2.2.trans h'.2.2.2.2.2.2.2⟩

/-- Validation only reads the view. -/
theorem checkTxn_viewEq {p q : TransactionPool} (h : ViewEq p q) (t : Txn) :
    checkTxn p t = checkTxn q t := by
  obtain ⟨h1, h2, h3, h4, h5, h6, h7, h8⟩ := h
  unfold checkTxn checkKind scConsumedSum sfConsumedSum
  rw [h2, h3, h4, h5, h6, h7, h8]

/-- validTxn only reads the view. -/
theorem validTxn_viewEq {p q : TransactionPool} (h : ViewEq p q) (t : Txn) :
    validTxn p t = validTxn q t := by
  unfold validTxn
  rw [checkTxn_viewEq h t]

/-- Projection lemmas for acceptCore. -/
theorem acceptCore_transactionList (p : TransactionPool) (t : Txn) :
    (acceptCore p t).transactionList = p.transactionList ++ [t] := rfl

theorem acceptCore_transactions (p : TransactionPool) (t : Txn) :
    (acceptCore p t).transactions = p.transactions.insert t.tid t := rfl

theorem acceptCore_siacoinOutputs (p : TransactionPool) (t : Txn) :
    (acceptCore p t).siacoinOutputs
      = addKind t.scCreated (spendKind t.scConsumed (p.siacoinOutputs, p.referenceSiacoinOutputs)).1 := rfl

theorem acceptCore_fileContracts (p : TransactionPool) (t : Txn) :
    (acceptCore p t).fileContracts
      = addKind t.fcCreated (spendKind t.fcConsumed (p.fileContracts, p.referenceFileContracts)).1 := rfl

theorem acceptCore_siafundOutputs (p : TransactionPool) (t : Txn) :
    (acceptCore p t).siafundOutputs
      = addKind t.sfCreated (spendKind t.sfConsumed (p.siafundOutputs, p.referenceSiafundOutputs)).1 := rfl

theorem acceptCore_referenceSiacoinOutputs (p : TransactionPool) (t : Txn) :
    (acceptCore p t).referenceSiacoinOutputs
      = (spendKind t.scConsumed (p.siacoinOutputs, p.referenceSiacoinOutputs)).2 := rfl

theorem acceptCore_referenceFileContracts (p : TransactionPool) (t : Txn) :
    (acceptCore p t).referenceFileContracts
      = (spendKind t.fcConsumed (p.fileContracts, p.referenceFileContracts)).2 := rfl

theorem acceptCore_referenceSiafundOutputs (p : TransactionPool) (t : Txn) :
    (acceptCore p t).referenceSiafundOutputs
      = (spendKind t.sfConsumed (p.siafundOutputs, p.referenceSiafundOutputs)).2 := rfl

/-- acceptCore is a function of the view. -/
theorem acceptCore_viewEq {p q : TransactionPool} (h : ViewEq p q) (t : Txn) :
    ViewEq (acceptCore p t) (acceptCore q t) := by
  obtain ⟨h1, h2, h3, h4, h5, h6, h7, h8⟩ := h
  refine ⟨?_, ?_, ?_, ?_, ?_, ?_, ?_, ?_⟩
  · rw [acceptCore_transactionList, acceptCore_transactionList, h1]
  · rw [acceptCore_transactions, acceptCore_transactions, h2]
  · rw [acceptCore_siacoinOutputs, acceptCore_siacoinOutputs, h3, h6]
  · rw [acceptCore_fileContracts, acceptCore_fileContracts, h4, h7]
  · rw [acceptCore_siafundOutputs, acceptCore_siafundOutputs, h5, h8]
  · rw [acceptCore_referenceSiacoinOutputs, acceptCore_referenceSiacoinOutputs, h3, h6]
  · rw [acceptCore_referenceFileContracts, acceptCore_referenceFileContracts, h4, h7]
  · rw [acceptCore_referenceSiafundOutputs, acceptCore_referenceSiafundOutputs, h5, h8]

/-- Projection lemmas for undoTxn. -/
theorem undoTxn_transactionList (p : TransactionPool) (t : Txn) :
    (undoTxn p t).transactionList = p.transactionList.erase t := rfl

theorem undoTxn_transactions (p : TransactionPool) (t : Txn) :
    (undoTxn p t).transactions = p.transactions.erase t.tid := rfl

theorem undoTxn_siacoinOutputs (p : TransactionPool) (t : Txn) :
    (undoTxn p t).siacoinOutputs
      = (unspendKind t.scConsumed
          (removeKind t.scCreated p.siacoinOutputs, p.referenceSiacoinOutputs)).1 := rfl

theorem undoTxn_fileContracts (p : TransactionPool) (t : Txn) :
    (undoTxn p t).fileContracts
      = (unspendKind t.fcConsumed
          (removeKind t.fcCreated p.fileContracts, p.referenceFileContracts)).1 := rfl

theorem undoTxn_siafundOutputs (p : TransactionPool) (t : Txn) :
    (undoTxn p t).siafundOutputs
      = (unspendKind t.sfConsumed
          (removeKind t.sfCreated p.siafundOutputs, p.referenceSiafundOutputs)).1 := rfl

theorem undoTxn_referenceSiacoinOutputs (p : TransactionPool) (t : Txn) :
    (undoTxn p t).referenceSiacoinOutputs
      = (unspendKind t.scConsumed
          (removeKind t.scCreated p.siacoinOutputs, p.referenceSiacoinOutputs)).2 := rfl

theorem undoTxn_referenceFileContracts (p : TransactionPool) (t : Txn) :
    (undoTxn p t).referenceFileContracts
      = (unspendKind t.fcConsumed
          (removeKind t.fcCreated p.fileContracts, p.referenceFileContracts)).2 := rfl

theorem undoTxn_referenceSiafundOutputs (p : TransactionPool) (t : Txn) :
    (undoTxn p t).referenceSiafundOutputs
      = (unspendKind t.sfConsumed
          (removeKind t.sfCreated p.siafundOutputs, p.referenceSiafundOutputs)).2 := rfl

/-- undoTxn is a function of the view. -/
theorem undoTxn_viewEq {p q : TransactionPool} (h : ViewEq p q) (t : Txn) :
    ViewEq (undoTxn p t) (undoTxn q t) := by
  obtain ⟨h1, h2, h3, h4, h5, h6, h7, h8⟩ := h
  refine ⟨?_, ?_, ?_, ?_, ?_, ?_, ?_, ?_⟩
  · rw [undoTxn_transactionList, undoTxn_transactionList, h1]
  · rw [undoTxn_transactions, undoTxn_transactions, h2]
  · rw [undoTxn_siacoinOutputs, undoTxn_siacoinOutputs, h3, h6]
  · rw [undoTxn_fileContracts, undoTxn_fileContracts, h4, h7]
  · rw [undoTxn_siafundOutputs, undoTxn_siafundOutputs, h5, h8]
  · rw [undoTxn_referenceSiacoinOutputs, undoTxn_referenceSiacoinOutputs, h3, h6]
  · rw [undoTxn_referenceFileContracts, undoTxn_referenceFileContracts, h4, h7]
  · rw [undoTxn_referenceSiafundOutputs, undoTxn_referenceSiafundOutputs, h5, h8]

/-- tryAcceptCore is a function of the view. -/
theorem tryAcceptCore_viewEq {p q : TransactionPool} (h : ViewEq p q) (t : Txn) :
    ViewEq (tryAcceptCore p t) (tryAcceptCore q t) := by
  unfold tryAcceptCore
  rw [validTxn_viewEq h t]
  by_cases hv : validTxn q t = true
  · simpa [hv] using acceptCore_viewEq h t
  · simpa [hv] using h

/-- readdAll is a function of the view. -/
theorem readdAll_viewEq {p q : TransactionPool} (h : ViewEq p q) (l : List Txn) :
    ViewEq (readdAll p l) (readdAll q l) := by
  induction l generalizing p q with
  | nil => exact h
  | cons t ts ih => exact ih (tryAcceptCore_viewEq h t)

/-- replayFrom is a function of the view. -/
theorem replayFrom_viewEq {p q : TransactionPool} (h : ViewEq p q) (l : List Txn) :
    ViewEq (replayFrom p l) (replayFrom q l) := by
  induction l generalizing p q with
  | nil => exact h
  | cons t ts ih => exact ih (acceptCore_viewEq h t)

/-- acceptedOf is a function of the view. -/
theorem acceptedOf_viewEq {p q : TransactionPool} (h : ViewEq p q) (l : List Txn) :
    acceptedOf p l = acceptedOf q l := by
  induction l generalizing p q with
  | nil => rfl
  | cons t ts ih =>
    unfold acceptedOf
    rw [validTxn_viewEq h t]
    by_cases hv : validTxn q t = true
    · rw [if_pos hv, if_pos hv, ih (acceptCore_viewEq h t)]
    · rw [if_neg hv, if_neg hv, ih h]

/-- okChain is a predicate of the view. -/
theorem okChain_viewEq {p q : TransactionPool} (h : ViewEq p q) (l : List Txn) :
    okChain p l → okChain q l := by
  induction l generalizing p q with
  | nil => exact fun _ => trivial
  | cons t ts ih =>
    intro hok
    exact ⟨by rw [← validTxn_viewEq h t]; exact hok.1, ih (acceptCore_viewEq h t) hok.2⟩

/-- undoAll is a function of the view. -/
theorem undoAll_viewEq {p q : TransactionPool} (h : ViewEq p q) :
    ViewEq (undoAll p) (undoAll q) := by
  have aux : ∀ (l : List Txn) (p q : TransactionPool), ViewEq p q →
      ViewEq (l.foldl undoTxn p) (l.foldl undoTxn q) := by
    intro l
    induction l with
    | nil => exact fun p q h => h
    | cons t ts ih => exact fun p q h => ih _ _ (undoTxn_viewEq h t)
  unfold undoAll
  rw [h.1]
  exact aux _ p q h

/-- Projection lemmas for rebase. -/
theorem rebase_transactionList (p : TransactionPool) (rev app : List Block) :
    (rebase p rev app).transactionList = p.transactionList := rfl

theorem rebase_siacoinOutputs (p : TransactionPool) (rev app : List Block) :
    (rebase p rev app).siacoinOutputs
      = (rebaseMaps (p.siacoinOutputs, p.fileContracts, p.siafundOutputs) rev app).1 := rfl

theorem rebase_fileContracts (p : TransactionPool) (rev app : List Block) :
    (rebase p rev app).fileContracts
      = (rebaseMaps (p.siacoinOutputs, p.fileContracts, p.siafundOutputs) rev app).2.1 := rfl

theorem rebase_siafundOutputs (p : TransactionPool) (rev app : List Block) :
    (rebase p rev app).siafundOutputs
      = (rebaseMaps (p.siacoinOutputs, p.fileContracts, p.siafundOutputs) rev app).2.2 := rfl

/-- rebase is a function of the view. -/
theorem rebase_viewEq {p q : TransactionPool} (h : ViewEq p q) (rev app : List Block) :
    ViewEq (rebase p rev app) (rebase q rev app) := by
  obtain ⟨h1, h2, h3, h4, h5, h6, h7, h8⟩ := h
  refine ⟨h1, h2, ?_, ?_, ?_, h6, h7, h8⟩
  · rw [rebase_siacoinOutputs, rebase_siacoinOutputs, h3, h4, h5]
  · rw [rebase_fileContracts, rebase_fileContracts, h3, h4, h5]
  · rw [rebase_siafundOutputs, rebase_siafundOutputs, h3, h4, h5]

/-- appendLog does not touch the view. -/
theorem appendLog_viewEq (p : TransactionPool) (rev app : List Block) (seq : List Txn)
    (ds : List SCDiff) : ViewEq (appendLog p rev app seq ds) p :=
  ⟨rfl, rfl, rfl, rfl, rfl, rfl, rfl, rfl⟩

/-- A pool state that exactly mirrors a confirmed ledger state: empty
sequence, empty id map, empty reference maps, the given output maps. -/
def basePool (b : NMap × NMap × NMap) : TransactionPool :=
  { initialPool none none with
    siacoinOutputs := b.1, fileContracts := b.2.1, siafundOutputs := b.2.2 }

theorem basePool_transactionList (b : NMap × NMap × NMap) :
    (basePool b).transactionList = [] := rfl

theorem basePool_idMapInv (b : NMap × NMap × NMap) : IdMapInv (basePool b) := by
  intro t' ht'
  simp [basePool, initialPool] at ht'

/-- Rebasing the base state rebases its maps. -/
theorem rebase_basePool (b : NMap × NMap × NMap) (rev app : List Block) :
    rebase (basePool b) rev app = basePool (rebaseMaps b rev app) := rfl

/-- Unfolding lemmas for readdAll and acceptedOf. -/
theorem readdAll_cons (p : TransactionPool) (t : Txn) (l : List Txn) :
    readdAll p (t :: l) = readdAll (tryAcceptCore p t) l := rfl

theorem acceptedOf_cons_pos {p : TransactionPool} {t : Txn} (l : List Txn)
    (hv : validTxn p t = true) :
    acceptedOf p (t :: l) = t :: acceptedOf (acceptCore p t) l := by
  simp [acceptedOf, hv]

theorem acceptedOf_cons_neg {p : TransactionPool} {t : Txn} (l : List Txn)
    (hv : ¬ validTxn p t = true) :
    acceptedOf p (t :: l) = acceptedOf p l := by
  simp [acceptedOf, hv]

/-- Re-adding with validation equals replaying the surviving sub-list. -/
theorem readdAll_eq_replay (l : List Txn) :
    ∀ p, readdAll p l = replayFrom p (acceptedOf p l) := by
  induction l with
  | nil => exact fun p => rfl
  | cons t ts ih =>
    intro p
    rw [readdAll_cons]
    by_cases hv : validTxn p t = true
    · rw [acceptedOf_cons_pos ts hv, replayFrom_cons]
      unfold tryAcceptCore
      rw [if_pos hv]
      exact ih (acceptCore p t)
    · rw [acceptedOf_cons_neg ts hv]
      unfold tryAcceptCore
      rw [if_neg hv]
      exact ih p

/-- The survivors of a re-add form a valid chain. -/
theorem okChain_acceptedOf (l : List Txn) :
    ∀ p, okChain p (acceptedOf p l) := by
  induction l with
  | nil => exact fun p => trivial
  | cons t ts ih =>
    intro p
    by_cases hv : validTxn p t = true
    · rw [acceptedOf_cons_pos ts hv]
      exact ⟨hv, ih (acceptCore p t)⟩
    · rw [acceptedOf_cons_neg ts hv]
      exact ih p

/-- The survivors are a sub-list of the candidates, in order. -/
theorem acceptedOf_sublist (l : List Txn) :
    ∀ p, (acceptedOf p l).Sublist l := by
  induction l with
  | nil => exact fun p => List.Sublist.refl []
  | cons t ts ih =>
    intro p
    by_cases hv : validTxn p t = true
    · rw [acceptedOf_cons_pos ts hv]
      exact (ih (acceptCore p t)).cons₂ t
    · rw [acceptedOf_cons_neg ts hv]
      exact (ih p).cons t

/-- acceptedOf splits over append. -/
theorem acceptedOf_append (l₁ l₂ : List Txn) :
    ∀ p, acceptedOf p (l₁ ++ l₂) = acceptedOf p l₁ ++ acceptedOf (readdAll p l₁) l₂ := by
  induction l₁ with
  | nil => exact fun p => rfl
  | cons t ts ih =>
    intro p
    rw [List.cons_append, readdAll_cons]
    by_cases hv : validTxn p t = true
    · rw [acceptedOf_cons_pos _ hv, acceptedOf_cons_pos ts hv, List.cons_append, ih]
      unfold tryAcceptCore
      rw [if_pos hv]
    · rw [acceptedOf_cons_neg _ hv, acceptedOf_cons_neg ts hv, ih]
      unfold tryAcceptCore
      rw [if_neg hv]

/-- A fully valid chain survives a re-add unchanged. -/
theorem acceptedOf_okChain (l : List Txn) :
    ∀ p, okChain p l → acceptedOf p l = l := by
  induction l with
  | nil => exact fun p _ => rfl
  | cons t ts ih =>
    intro p hok
    rw [acceptedOf_cons_pos ts hok.1, ih _ hok.2]

/-- The pool computed by tryAcceptDiffs is the re-added pool. -/
theorem tryAcceptDiffs_fst (l : List Txn) :
    ∀ p, (tryAcceptDiffs p l).1 = readdAll p l := by
  induction l with
  | nil => exact fun p => rfl
  | cons t ts ih =>
    intro p
    rw [readdAll_cons]
    by_cases hv : validTxn p t = true
    · show (if validTxn p t = true then _ else _ : TransactionPool × List SCDiff).1 = _
      rw [if_pos hv]
      unfold tryAcceptCore
      rw [if_pos hv]
      exact ih (acceptCore p t)
    · show (if validTxn p t = true then _ else _ : TransactionPool × List SCDiff).1 = _
      rw [if_neg hv]
      unfold tryAcceptCore
      rw [if_neg hv]
      exact ih p

/-- update in terms of its components. -/
theorem update_eq (p : TransactionPool) (rev app : List Block) :
    update p rev app
      = appendLog (readdAll (rebase (undoAll p) rev app) (revertedTxns rev ++ p.transactionList))
          rev app
          (readdAll (rebase (undoAll p) rev app) (revertedTxns rev ++ p.transactionList)).transactionList
          (rebaseSCDiffs rev app
            ++ (tryAcceptDiffs (rebase (undoAll p) rev app) (revertedTxns rev ++ p.transactionList)).2) := by
  show appendLog
      (tryAcceptDiffs (rebase (undoAll p) rev app) (revertedTxns rev ++ p.transactionList)).1
      rev app
      (tryAcceptDiffs (rebase (undoAll p) rev app) (revertedTxns rev ++ p.transactionList)).1.transactionList
      (rebaseSCDiffs rev app
        ++ (tryAcceptDiffs (rebase (undoAll p) rev app) (revertedTxns rev ++ p.transactionList)).2)
      = _
  rw [tryAcceptDiffs_fst]

/-- Canonical form of a reachable pool: its view is the replay of its
own unconfirmed sequence from some confirmed base state, with every
step of the replay valid. -/
def Canonical (p : TransactionPool) : Prop :=
  ∃ b, okChain (basePool b) p.transactionList ∧
    ViewEq p (replayFrom (basePool b) p.transactionList)

/-- Every reachable pool is in canonical form. -/
theorem reachable_canonical {p : TransactionPool} (h : Reachable p) : Canonical p := by
  induction h with
  | init cs g =>
    exact ⟨(∅, ∅, ∅), trivial, ⟨rfl, rfl, rfl, rfl, rfl, rfl, rfl, rfl⟩⟩
  | step op hR ih =>
    rename_i q
    obtain ⟨b, hok, hview⟩ := ih
    cases op with
    | acc t =>
      show Canonical (Accept q t).1
      unfold Accept
      cases hc : checkTxn q t with
      | some r => exact ⟨b, hok, hview⟩
      | none =>
        have hv : validTxn q t = true := by
          unfold validTxn
          rw [hc]
          rfl
        have hlist : (appendLog (acceptCore q t) [] [] (acceptCore q t).transactionList
            (acceptSCDiffs q t)).transactionList = q.transactionList ++ [t] := rfl
        refine ⟨b, ?_, ?_⟩
        · rw [hlist, okChain_append]
          refine ⟨hok, ?_, trivial⟩
          rw [← validTxn_viewEq hview t]
          exact hv
        · rw [hlist, replayFrom_append]
          exact viewEq_trans (appendLog_viewEq _ _ _ _ _) (acceptCore_viewEq hview t)
    | res rev app =>
      show Canonical (update q rev app)
      have h1 : ViewEq (undoAll q) (basePool b) := by
        have h' := undoAll_viewEq hview
        rw [undoAll_replayFrom (basePool b) rfl (basePool_idMapInv b) _ hok] at h'
        exact h'
      have h2 : ViewEq (rebase (undoAll q) rev app) (basePool (rebaseMaps b rev app)) := by
        have h' := rebase_viewEq h1 rev app
        rw [rebase_basePool] at h'
        exact h'
      have h2nil : (rebase (undoAll q) rev app).transactionList = [] := h2.1
      have hA : (readdAll (rebase (undoAll q) rev app)
          (revertedTxns rev ++ q.transactionList)).transactionList
          = acceptedOf (rebase (undoAll q) rev app) (revertedTxns rev ++ q.transactionList) := by
        rw [readdAll_eq_replay, replayFrom_transactionList, h2nil, List.nil_append]
      have hlist : (update q rev app).transactionList
          = acceptedOf (rebase (undoAll q) rev app) (revertedTxns rev ++ q.transactionList) := by
        rw [update_eq]
        exact hA
      refine ⟨rebaseMaps b rev app, ?_, ?_⟩
      · rw [hlist]
        exact okChain_viewEq h2 _
          (okChain_acceptedOf (revertedTxns rev ++ q.transactionList) (rebase (undoAll q) rev app))
      · rw [hlist, update_eq]
        refine viewEq_trans (appendLog_viewEq _ _ _ _ _) ?_
        rw [readdAll_eq_replay]
        exact replayFrom_viewEq h2 _

/-- ViewEq is symmetric. -/
theorem viewEq_symm {p q : TransactionPool} (h : ViewEq p q) : ViewEq q p :=
  ⟨h.1.symm, h.2.1.symm, h.2.2.1.symm, h.2.2.2.1.symm, h.2.2.2.2.1.symm,
    h.2.2.2.2.2.1.symm, h.2.2.2.2.2.2.1.symm, h.2.2.2.2.2.2.2.symm⟩

/-- Folding erase over a permutation of the accumulator empties it. -/
theorem erase_fold_perm : ∀ (l acc : List Txn), acc.Perm l →
    l.foldl (fun s t => s.erase t) acc = [] := by
  intro l
  induction l with
  | nil =>
    intro acc h
    rw [List.foldl_nil]
    exact h.eq_nil
  | cons t ts ih =>
    intro acc h
    rw [List.foldl_cons]
    apply ih
    have h' := h.erase t
    rwa [List.erase_cons_head] at h'

/-- The Reverting step always empties the unconfirmed sequence. -/
theorem undoAll_transactionList (p : TransactionPool) :
    (undoAll p).transactionList = [] := by
  have aux : ∀ (l : List Txn) (p : TransactionPool),
      (l.foldl undoTxn p).transactionList
        = l.foldl (fun acc t => acc.erase t) p.transactionList := by
    intro l
    induction l with
    | nil => exact fun p => rfl
    | cons t ts ih =>
      intro p
      rw [List.foldl_cons, List.foldl_cons, ih, undoTxn_transactionList]
  unfold undoAll
  rw [aux]
  exact erase_fold_perm _ _ (List.reverse_perm p.transactionList).symm

/-- Transaction `later` creates no output consumed by `earlier`, for
any of the three kinds. -/
def NoDepOn (earlier later : Txn) : Prop :=
  (∀ o ∈ later.scCreated.map Prod.fst, o ∉ earlier.scConsumed) ∧
  (∀ o ∈ later.fcCreated.map Prod.fst, o ∉ earlier.fcConsumed) ∧
  (∀ o ∈ later.sfCreated.map Prod.fst, o ∉ earlier.sfConsumed)

/-- Dependency order (Invariant A of the spec): whenever a transaction
consumes an output created by another transaction of the sequence, the
creator appears strictly earlier. -/
def depOrdered (l : List Txn) : Prop := l.Pairwise NoDepOn

/-- Every consumed id of the given transaction sits in the pool's
reference maps. -/
def ConsRefIn (p : TransactionPool) (t' : Txn) : Prop :=
  (∀ o ∈ t'.scConsumed, (p.referenceSiacoinOutputs.lookup o).isSome) ∧
  (∀ o ∈ t'.fcConsumed, (p.referenceFileContracts.lookup o).isSome) ∧
  (∀ o ∈ t'.sfConsumed, (p.referenceSiafundOutputs.lookup o).isSome)

/-- Accepting a transaction keeps earlier reference entries present. -/
theorem consRefIn_acceptCore_mono {p : TransactionPool} {t a : Txn}
    (h : ConsRefIn p a) : ConsRefIn (acceptCore p t) a := by
  refine ⟨?_, ?_, ?_⟩
  · intro o ho
    rw [acceptCore_referenceSiacoinOutputs]
    exact spendKind_snd_mono _ _ _ _ (h.1 o ho)
  · intro o ho
    rw [acceptCore_referenceFileContracts]
    exact spendKind_snd_mono _ _ _ _ (h.2.1 o ho)
  · intro o ho
    rw [acceptCore_referenceSiafundOutputs]
    exact spendKind_snd_mono _ _ _ _ (h.2.2 o ho)

/-- A freshly accepted transaction's consumed ids all land in the
reference maps. -/
theorem consRefIn_acceptCore_self {p : TransactionPool} {t : Txn}
    (hv : validTxn p t = true) : ConsRefIn (acceptCore p t) t := by
  obtain ⟨-, hsc, hfc, hsf⟩ := validTxn_parts hv
  refine ⟨?_, ?_, ?_⟩
  · obtain ⟨hd, -, hp, -, -⟩ := checkKind_none_parts hsc
    intro o ho
    rw [acceptCore_referenceSiacoinOutputs, (spendKind_lookup _ _ _ hd hp).2 o, if_pos ho]
    exact hp o ho
  · obtain ⟨hd, -, hp, -, -⟩ := checkKind_none_parts hfc
    intro o ho
    rw [acceptCore_referenceFileContracts, (spendKind_lookup _ _ _ hd hp).2 o, if_pos ho]
    exact hp o ho
  · obtain ⟨hd, -, hp, -, -⟩ := checkKind_none_parts hsf
    intro o ho
    rw [acceptCore_referenceSiafundOutputs, (spendKind_lookup _ _ _ hd hp).2 o, if_pos ho]
    exact hp o ho

/-- A valid transaction creates nothing consumed by a transaction whose
consumed ids are already in the reference maps. -/
theorem noDepOn_of_valid {p : TransactionPool} {t a : Txn}
    (hv : validTxn p t = true) (ha : ConsRefIn p a) : NoDepOn a t := by
  obtain ⟨-, hsc, hfc, hsf⟩ := validTxn_parts hv
  refine ⟨?_, ?_, ?_⟩
  · obtain ⟨-, -, -, -, hfresh⟩ := checkKind_none_parts hsc
    intro o ho hoa
    obtain ⟨kv, hkv, hfst⟩ := List.mem_map.mp ho
    have h1 := (hfresh kv hkv).2
    have h2 := ha.1 o hoa
    rw [hfst] at h1
    rw [h1] at h2
    simp at h2
  · obtain ⟨-, -, -, -, hfresh⟩ := checkKind_none_parts hfc
    intro o ho hoa
    obtain ⟨kv, hkv, hfst⟩ := List.mem_map.mp ho
    have h1 := (hfresh kv hkv).2
    have h2 := ha.2.1 o hoa
    rw [hfst] at h1
    rw [h1] at h2
    simp at h2
  · obtain ⟨-, -, -, -, hfresh⟩ := checkKind_none_parts hsf
    intro o ho hoa
    obtain ⟨kv, hkv, hfst⟩ := List.mem_map.mp ho
    have h1 := (hfresh kv hkv).2
    have h2 := ha.2.2 o hoa
    rw [hfst] at h1
    rw [h1] at h2
    simp at h2

/-- Replaying a valid chain preserves dependency order of the sequence
together with the reference-containment of consumed ids. -/
theorem depOrdered_replay (l : List Txn) :
    ∀ p, okChain p l → (∀ a ∈ p.transactionList, ConsRefIn p a) →
      depOrdered p.transactionList →
      depOrdered (replayFrom p l).transactionList ∧
        (∀ a ∈ (replayFrom p l).transactionList, ConsRefIn (replayFrom p l) a) := by
  induction l with
  | nil => exact fun p _ hc hd => ⟨hd, hc⟩
  | cons t ts ih =>
    intro p hok hc hd
    rw [replayFrom_cons]
    apply ih (acceptCore p t) hok.2
    · intro a ha
      rw [acceptCore_transactionList] at ha
      rcases List.mem_append.mp ha with h | h
      · exact consRefIn_acceptCore_mono (hc a h)
      · have haT : a = t := by simpa using h
        subst haT
        exact consRefIn_acceptCore_self hok.1
    · show depOrdered (p.transactionList ++ [t])
      unfold depOrdered
      rw [List.pairwise_append]
      refine ⟨hd, List.pairwise_singleton _ _, ?_⟩
      intro a ha b hb
      have hbT : b = t := by simpa using hb
      subst hbT
      exact noDepOn_of_valid hok.1 (hc a ha)

/-- Every reachable pool satisfies dependency order. -/
theorem reachable_depOrdered {p : TransactionPool} (h : Reachable p) :
    depOrdered p.transactionList := by
  obtain ⟨b, hok, -⟩ := reachable_canonical h
  have hrep := (depOrdered_replay p.transactionList (basePool b) hok
    (by intro a ha; simp [basePool, initialPool] at ha)
    (List.Pairwise.nil)).1
  rwa [replayFrom_transactionList, basePool_transactionList, List.nil_append] at hrep

/-- tryAcceptCore does not touch the update history. -/
theorem tryAcceptCore_logs (p : TransactionPool) (t : Txn) :
    (tryAcceptCore p t).revertBlocksUpdates = p.revertBlocksUpdates ∧
    (tryAcceptCore p t).applyBlocksUpdates = p.applyBlocksUpdates ∧
    (tryAcceptCore p t).unconfirmedTransactions = p.unconfirmedTransactions ∧
    (tryAcceptCore p t).unconfirmedSiacoinDiffs = p.unconfirmedSiacoinDiffs := by
  unfold tryAcceptCore
  by_cases hv : validTxn p t = true
  · rw [if_pos hv]
    exact ⟨rfl, rfl, rfl, rfl⟩
  · rw [if_neg hv]
    exact ⟨rfl, rfl, rfl, rfl⟩

/-- readdAll does not touch the update history. -/
theorem readdAll_logs (l : List Txn) : ∀ p : TransactionPool,
    (readdAll p l).revertBlocksUpdates = p.revertBlocksUpdates ∧
    (readdAll p l).applyBlocksUpdates = p.applyBlocksUpdates ∧
    (readdAll p l).unconfirmedTransactions = p.unconfirmedTransactions ∧
    (readdAll p l).unconfirmedSiacoinDiffs = p.unconfirmedSiacoinDiffs := by
  induction l with
  | nil => exact fun p => ⟨rfl, rfl, rfl, rfl⟩
  | cons t ts ih =>
    intro p
    rw [readdAll_cons]
    obtain ⟨r1, r2, r3, r4⟩ := ih (tryAcceptCore p t)
    obtain ⟨s1, s2, s3, s4⟩ := tryAcceptCore_logs p t
    exact ⟨r1.trans s1, r2.trans s2, r3.trans s3, r4.trans s4⟩

/-- undoAll does not touch the update history. -/
theorem undoAll_logs (p : TransactionPool) :
    (undoAll p).revertBlocksUpdates = p.revertBlocksUpdates ∧
    (undoAll p).applyBlocksUpdates = p.applyBlocksUpdates ∧
    (undoAll p).unconfirmedTransactions = p.unconfirmedTransactions ∧
    (undoAll p).unconfirmedSiacoinDiffs = p.unconfirmedSiacoinDiffs := by
  have aux : ∀ (l : List Txn) (p : TransactionPool),
      (l.foldl undoTxn p).revertBlocksUpdates = p.revertBlocksUpdates ∧
      (l.foldl undoTxn p).applyBlocksUpdates = p.applyBlocksUpdates ∧
      (l.foldl undoTxn p).unconfirmedTransactions = p.unconfirmedTransactions ∧
      (l.foldl undoTxn p).unconfirmedSiacoinDiffs = p.unconfirmedSiacoinDiffs := by
    intro l
    induction l with
    | nil => exact fun p => ⟨rfl, rfl, rfl, rfl⟩
    | cons t ts ih =>
      intro p
      rw [List.foldl_cons]
      exact ih (undoTxn p t)
  exact aux _ p

/-- Accept on a passing validation applies the mutation and logs it. -/
theorem accept_fst_of_checkTxn_none {p : TransactionPool} {t : Txn}
    (hc : checkTxn p t = none) :
    (Accept p t).1 = appendLog (acceptCore p t) [] []
      (acceptCore p t).transactionList (acceptSCDiffs p t) := by
  unfold Accept
  rw [hc]

/-- Accept on a failing validation returns the pool unchanged. -/
theorem accept_fst_of_checkTxn_some {p : TransactionPool} {t : Txn} {r : Reason}
    (hc : checkTxn p t = some r) : (Accept p t).1 = p := by
  unfold Accept
  rw [hc]

/-- A freshly constructed pool (non-nil collaborators). -/
def poolStart : TransactionPool := initialPool (some 0) (some 0)

/-- A transaction carrying only arbitrary data: no inputs, no outputs,
no fees.  Value arithmetic holds vacuously, so Accept admits it. -/
def tDataOnly : Txn :=
  { tid := 1, scConsumed := [], scCreated := [], fcConsumed := [], fcCreated := [],
    sfConsumed := [], sfCreated := [], fees := 0, arbitraryData := ["timestamp"] }

/-- A confirmed block creating siacoin output 5 of value 10. -/
def blkDemo : Block :=
  { bid := 0, btxns := [], scCreatedDiff := [(5, 10)], scSpentDiff := [],
    fcCreatedDiff := [], fcSpentDiff := [], sfCreatedDiff := [], sfSpentDiff := [] }

/-- Spends confirmed output 5, creates output 7. -/
def tSpend1 : Txn :=
  { tid := 2, scConsumed := [5], scCreated := [(7, 10)], fcConsumed := [], fcCreated := [],
    sfConsumed := [], sfCreated := [], fees := 0, arbitraryData := [] }

/-- Spends unconfirmed output 7 (created by tSpend1), creates output 8. -/
def tSpend2 : Txn :=
  { tid := 3, scConsumed := [7], scCreated := [(8, 10)], fcConsumed := [], fcCreated := [],
    sfConsumed := [], sfCreated := [], fees := 0, arbitraryData := [] }

/-- The pool after resyncing to a ledger holding blkDemo. -/
def poolFunded : TransactionPool := applyOp poolStart (.res [] [blkDemo])

/-- The pool after accepting the dependent chain tSpend1, tSpend2. -/
def poolChain : TransactionPool :=
  applyOp (applyOp poolFunded (.acc tSpend1)) (.acc tSpend2)

/-- C1 (code_bug evidence): `New` with a non-nil consensus set and a
nil gateway returns an error, yet still constructs the pool and still
subscribes it to the consensus set — the nil-gateway branch of the
source sets `err` but is missing a `return`.  The nil-consensus-set
path behaves as the claim states. -/
theorem new_nil_gateway_bug :
    (New (some 0) none).err = some "transaction pool cannot use a nil gateway" ∧
    (New (some 0) none).tp = some (initialPool (some 0) none) ∧
    (New (some 0) none).subscribed = true ∧
    (New none (some 0)).err = some "transaction pool cannot use a nil state" ∧
    (New none (some 0)).tp = none ∧
    (New none (some 0)).subscribed = false :=
  ⟨rfl, rfl, rfl, rfl, rfl, rfl⟩

/-- C2: dependency order is an invariant of every reachable pool state
(every sequence of Accept and resync operations from a fresh pool): a
transaction never consumes an output created by a transaction
appearing at or after its own position. -/
theorem accept_resync_dependency_order (p : TransactionPool) (h : Reachable p) :
    depOrdered p.transactionList :=
  reachable_depOrdered h

/-- Witness for C2 at a concrete reachable three-operation state. -/
theorem accept_resync_dependency_order_witness :
    Reachable poolChain ∧ depOrdered poolChain.transactionList := by
  have hr : Reachable poolChain :=
    Reachable.step _ (Reachable.step _ (Reachable.step _ (Reachable.init (some 0) (some 0))))
  exact ⟨hr, accept_resync_dependency_order poolChain hr⟩

/-- All three reference maps are empty. -/
def ReferenceSetEmpty (p : TransactionPool) : Prop :=
  p.referenceSiacoinOutputs = ∅ ∧ p.referenceFileContracts = ∅ ∧
  p.referenceSiafundOutputs = ∅

/-- C3 (counterexample): the reference set is NOT empty exactly when
the unconfirmed sequence is empty.  Accepting a transaction that
consumes nothing (arbitrary data only) gives a reachable state with a
non-empty sequence and empty reference maps. -/
theorem reference_set_iff_counterexample :
    ¬ (∀ p : TransactionPool, Reachable p →
        (ReferenceSetEmpty p ↔ p.transactionList = [])) := by
  intro hclaim
  have hr : Reachable (applyOp poolStart (.acc tDataOnly)) :=
    Reachable.step _ (Reachable.init (some 0) (some 0))
  have h2 := (hclaim _ hr).mp (by unfold ReferenceSetEmpty; refine ⟨?_, ?_, ?_⟩ <;> decide)
  exact absurd h2 (by decide)

/-- C3 (amended): in every reachable state, if the unconfirmed
sequence is empty then the reference set (all three maps) is empty. -/
theorem reference_set_empty_of_no_unconfirmed (p : TransactionPool) (h : Reachable p)
    (hnil : p.transactionList = []) : ReferenceSetEmpty p := by
  obtain ⟨b, -, hview⟩ := reachable_canonical h
  rw [hnil] at hview
  exact ⟨hview.2.2.2.2.2.1, hview.2.2.2.2.2.2.1, hview.2.2.2.2.2.2.2⟩

/-- Witness for the amended C3 at the freshly constructed pool. -/
theorem reference_set_empty_of_no_unconfirmed_witness :
    Reachable poolStart ∧ poolStart.transactionList = [] ∧ ReferenceSetEmpty poolStart := by
  have hr : Reachable poolStart := Reachable.init (some 0) (some 0)
  exact ⟨hr, rfl, reference_set_empty_of_no_unconfirmed poolStart hr rfl⟩

/-- C4: placement policy.  (1) a transaction accepted by Accept is
appended at the tail of the sequence; (2) after a resync, the sequence
is the surviving reverted-block transactions (in order, at the head)
followed by the surviving previously-pending transactions (in order);
(3) from any reachable state both operations preserve the
dependency-order invariant. -/
theorem insertion_position_policy :
    (∀ (p : TransactionPool) (t : Txn), validTxn p t = true →
        (Accept p t).1.transactionList = p.transactionList ++ [t]) ∧
    (∀ (p : TransactionPool) (rev app : List Block), ∃ la lb,
        (update p rev app).transactionList = la ++ lb ∧
        la.Sublist (revertedTxns rev) ∧ lb.Sublist p.transactionList) ∧
    (∀ p : TransactionPool, Reachable p →
        (∀ t, depOrdered ((Accept p t).1.transactionList)) ∧
        (∀ rev app, depOrdered ((update p rev app).transactionList))) := by
  refine ⟨?_, ?_, ?_⟩
  · intro p t hv
    have hc : checkTxn p t = none := by
      unfold validTxn at hv
      exact Option.isNone_iff_eq_none.mp hv
    rw [accept_fst_of_checkTxn_none hc]
    rfl
  · intro p rev app
    have h2nil : (rebase (undoAll p) rev app).transactionList = [] := by
      rw [rebase_transactionList, undoAll_transactionList]
    refine ⟨acceptedOf (rebase (undoAll p) rev app) (revertedTxns rev),
      acceptedOf (readdAll (rebase (undoAll p) rev app) (revertedTxns rev)) p.transactionList,
      ?_, ?_, ?_⟩
    · rw [update_eq]
      show (readdAll (rebase (undoAll p) rev app)
          (revertedTxns rev ++ p.transactionList)).transactionList = _
      rw [readdAll_eq_replay, replayFrom_transactionList, h2nil, List.nil_append,
        acceptedOf_append]
    · exact acceptedOf_sublist _ _
    · exact acceptedOf_sublist _ _
  · intro p hr
    constructor
    · intro t
      exact reachable_depOrdered (Reachable.step (PoolOp.acc t) hr)
    · intro rev app
      exact reachable_depOrdered (Reachable.step (PoolOp.res rev app) hr)

/-- Witness for C4: a concrete valid accept appended at the tail, and
dependency order after the operation. -/
theorem insertion_position_policy_witness :
    validTxn poolFunded tSpend1 = true ∧
    (Accept poolFunded tSpend1).1.transactionList = poolFunded.transactionList ++ [tSpend1] ∧
    Reachable poolFunded ∧
    depOrdered ((Accept poolFunded tSpend1).1.transactionList) := by
  have hv : validTxn poolFunded tSpend1 = true := by decide
  have hr : Reachable poolFunded :=
    Reachable.step _ (Reachable.init (some 0) (some 0))
  exact ⟨hv, insertion_position_policy.1 poolFunded tSpend1 hv, hr,
    (insertion_position_policy.2.2 poolFunded hr).1 tSpend1⟩

/-- C5: Accept is atomic on rejection — a rejected call leaves the
sequence, the id map, the three output maps, the three reference maps
and all four update-history slices exactly as they were. -/
theorem accept_rejection_no_state_change (p : TransactionPool) (t : Txn)
    (q : TransactionPool) (r : Reason) (h : Accept p t = (q, some r)) :
    q.transactionList = p.transactionList ∧
    q.transactions = p.transactions ∧
    q.siacoinOutputs = p.siacoinOutputs ∧
    q.fileContracts = p.fileContracts ∧
    q.siafundOutputs = p.siafundOutputs ∧
    q.referenceSiacoinOutputs = p.referenceSiacoinOutputs ∧
    q.referenceFileContracts = p.referenceFileContracts ∧
    q.referenceSiafundOutputs = p.referenceSiafundOutputs ∧
    q.revertBlocksUpdates = p.revertBlocksUpdates ∧
    q.applyBlocksUpdates = p.applyBlocksUpdates ∧
    q.unconfirmedTransactions = p.unconfirmedTransactions ∧
    q.unconfirmedSiacoinDiffs = p.unconfirmedSiacoinDiffs := by
  unfold Accept at h
  cases hc : checkTxn p t with
  | none =>
    rw [hc] at h
    simp only [] at h
    exact absurd (congrArg Prod.snd h) (by simp)
  | some r' =>
    rw [hc] at h
    simp only [] at h
    have hq : p = q := congrArg Prod.fst h
    subst hq
    exact ⟨rfl, rfl, rfl, rfl, rfl, rfl, rfl, rfl, rfl, rfl, rfl, rfl⟩

/-- Witness for C5: a double spend of an absent output is rejected and
the pool is left untouched. -/
theorem accept_rejection_no_state_change_witness :
    Accept poolStart tSpend1 = ((Accept poolStart tSpend1).1, some Reason.unknownInput) ∧
    (Accept poolStart tSpend1).1.transactionList = poolStart.transactionList ∧
    (Accept poolStart tSpend1).1.unconfirmedSiacoinDiffs = poolStart.unconfirmedSiacoinDiffs := by
  have h : Accept poolStart tSpend1
      = ((Accept poolStart tSpend1).1, some Reason.unknownInput) := rfl
  have hc := accept_rejection_no_state_change poolStart tSpend1 _ _ h
  exact ⟨h, hc.1, hc.2.2.2.2.2.2.2.2.2.2.2⟩

/-- C6: a resync with no reverted and no applied blocks leaves the
unconfirmed sequence and the three output maps exactly equal to their
values before the call, in every reachable state. -/
theorem noop_resync_identity (p : TransactionPool) (h : Reachable p) :
    (update p [] []).transactionList = p.transactionList ∧
    (update p [] []).siacoinOutputs = p.siacoinOutputs ∧
    (update p [] []).fileContracts = p.fileContracts ∧
    (update p [] []).siafundOutputs = p.siafundOutputs := by
  obtain ⟨b, hok, hview⟩ := reachable_canonical h
  have h1 : ViewEq (undoAll p) (basePool b) := by
    have h' := undoAll_viewEq hview
    rw [undoAll_replayFrom (basePool b) rfl (basePool_idMapInv b) _ hok] at h'
    exact h'
  have h2 : ViewEq (rebase (undoAll p) [] []) (basePool b) := by
    have h' := rebase_viewEq h1 ([] : List Block) ([] : List Block)
    rw [rebase_basePool] at h'
    exact h'
  have hokL : okChain (rebase (undoAll p) [] []) p.transactionList :=
    okChain_viewEq (viewEq_symm h2) _ hok
  have hacc : acceptedOf (rebase (undoAll p) [] []) p.transactionList = p.transactionList :=
    acceptedOf_okChain p.transactionList _ hokL
  have hfinal : ViewEq (update p [] []) p := by
    rw [update_eq]
    refine viewEq_trans (appendLog_viewEq _ _ _ _ _) ?_
    rw [readdAll_eq_replay]
    rw [show revertedTxns [] ++ p.transactionList = p.transactionList from rfl]
    rw [hacc]
    exact viewEq_trans (replayFrom_viewEq h2 _) (viewEq_symm hview)
  exact ⟨hfinal.1, hfinal.2.2.1, hfinal.2.2.2.1, hfinal.2.2.2.2.1⟩

/-- Witness for C6 at a concrete reachable state with two pending
transactions. -/
theorem noop_resync_identity_witness :
    Reachable poolChain ∧
    (update poolChain [] []).transactionList = poolChain.transactionList ∧
    (update poolChain [] []).siacoinOutputs = poolChain.siacoinOutputs := by
  have hr : Reachable poolChain :=
    Reachable.step _ (Reachable.step _ (Reachable.step _ (Reachable.init (some 0) (some 0))))
  have hc := noop_resync_identity poolChain hr
  exact ⟨hr, hc.1, hc.2.1⟩

/-- C7: the update history is append-only — every mutation extends the
four history slices, never modifying or removing existing entries —
and ReadFrom at cursor 0 returns the entire history in append order. -/
theorem update_log_append_only (p : TransactionPool) (op : PoolOp) :
    (∃ s, (applyOp p op).revertBlocksUpdates = p.revertBlocksUpdates ++ s) ∧
    (∃ s, (applyOp p op).applyBlocksUpdates = p.applyBlocksUpdates ++ s) ∧
    (∃ s, (applyOp p op).unconfirmedTransactions = p.unconfirmedTransactions ++ s) ∧
    (∃ s, (applyOp p op).unconfirmedSiacoinDiffs = p.unconfirmedSiacoinDiffs ++ s) ∧
    ReadFrom (applyOp p op) 0
      = ((applyOp p op).revertBlocksUpdates, (applyOp p op).applyBlocksUpdates,
         (applyOp p op).unconfirmedTransactions, (applyOp p op).unconfirmedSiacoinDiffs) := by
  have hread : ∀ q : TransactionPool, ReadFrom q 0
      = (q.revertBlocksUpdates, q.applyBlocksUpdates,
         q.unconfirmedTransactions, q.unconfirmedSiacoinDiffs) := fun q => rfl
  cases op with
  | acc t =>
    cases hc : checkTxn p t with
    | some r =>
      have ha : applyOp p (PoolOp.acc t) = p := accept_fst_of_checkTxn_some hc
      rw [ha]
      exact ⟨⟨[], (List.append_nil _).symm⟩, ⟨[], (List.append_nil _).symm⟩,
        ⟨[], (List.append_nil _).symm⟩, ⟨[], (List.append_nil _).symm⟩, hread p⟩
    | none =>
      have ha : applyOp p (PoolOp.acc t) = appendLog (acceptCore p t) [] []
          (acceptCore p t).transactionList (acceptSCDiffs p t) :=
        accept_fst_of_checkTxn_none hc
      rw [ha]
      exact ⟨⟨[[]], rfl⟩, ⟨[[]], rfl⟩,
        ⟨[(acceptCore p t).transactionList], rfl⟩, ⟨[acceptSCDiffs p t], rfl⟩, hread _⟩
  | res rev app =>
    show (∃ s, (update p rev app).revertBlocksUpdates = p.revertBlocksUpdates ++ s) ∧ _
    obtain ⟨r1, r2, r3, r4⟩ := readdAll_logs
      (revertedTxns rev ++ p.transactionList) (rebase (undoAll p) rev app)
    obtain ⟨u1, u2, u3, u4⟩ := undoAll_logs p
    have ha : applyOp p (PoolOp.res rev app) = update p rev app := rfl
    rw [ha, update_eq]
    refine ⟨⟨[rev], ?_⟩, ⟨[app], ?_⟩, ⟨[(readdAll (rebase (undoAll p) rev app)
      (revertedTxns rev ++ p.transactionList)).transactionList], ?_⟩,
      ⟨[rebaseSCDiffs rev app ++ (tryAcceptDiffs (rebase (undoAll p) rev app)
        (revertedTxns rev ++ p.transactionList)).2], ?_⟩, hread _⟩
    · show (readdAll _ _).revertBlocksUpdates ++ [rev] = _
      rw [r1]
      show (undoAll p).revertBlocksUpdates ++ [rev] = _
      rw [u1]
    · show (readdAll _ _).applyBlocksUpdates ++ [app] = _
      rw [r2]
      show (undoAll p).applyBlocksUpdates ++ [app] = _
      rw [u2]
    · show (readdAll _ _).unconfirmedTransactions ++ [_] = _
      rw [r3]
      show (undoAll p).unconfirmedTransactions ++ [_] = _
      rw [u3]
    · show (readdAll _ _).unconfirmedSiacoinDiffs ++ [_] = _
      rw [r4]
      show (undoAll p).unconfirmedSiacoinDiffs ++ [_] = _
      rw [u4]

end SiaPool

namespace SiaWallet

/-
Embedding of the wallet transaction builder, sia/wallet/transactions.go.
The BasicWallet struct itself is declared elsewhere in the wallet
package; the fields this file reads and writes (transactionCounter,
spentCounter, transactions) are modelled directly.  Go's
map[string]*openTransaction is modelled as an association list with
Go-map insert/update semantics; the Go code mutates the open
transaction through the stored pointer, modelled as an in-place update
of the map entry.  Payload types the wallet does not inspect
(FileContract, StorageProof, signatures, spend conditions) are
abstracted as numbers.
-/

/-- consensus.Input as used by the wallet. -/
structure Input where
  outputID : Nat
  spendConditions : Nat
deriving DecidableEq

/-- consensus.Output: a value and a spend hash. -/
structure Output where
  value : Nat
  spendHash : Nat
deriving DecidableEq

/-- consensus.Transaction as manipulated by transactions.go. -/
structure WTxn where
  inputs : List Input
  minerFees : List Nat
  outputs : List Output
  fileContracts : List Nat
  storageProofs : List Nat
  arbitraryData : List String
  signatures : List Nat
deriving DecidableEq

/-- openTransaction: the transaction under construction plus the
indices of the wallet-added inputs. -/
structure OpenTxn where
  transaction : WTxn
  inputs : List Nat
deriving DecidableEq

/-- The BasicWallet fields that transactions.go reads and writes.
Both counters are Go ints: 64-bit two's-complement values whose
increment wraps.  They are modelled as the bit pattern, a natural
number kept below 2^64 by an explicit mod at each increment. -/
structure Wallet where
  transactionCounter : Nat
  spentCounter : Nat
  transactions : List (String × OpenTxn)
deriving DecidableEq

/-- Go map read `w.transactions[id]` on an association list. -/
def lookupList : List (String × OpenTxn) → String → Option OpenTxn
  | [], _ => none
  | kv :: rest, id => if kv.1 == id then some kv.2 else lookupList rest id

/-- Go map read of the wallet's open-transaction map. -/
def lookupTx (w : Wallet) (id : String) : Option OpenTxn :=
  lookupList w.transactions id

/-- Go map write `m[id] = v`: replace the entry when present,
otherwise add it. -/
def insertTx (m : List (String × OpenTxn)) (id : String) (v : OpenTxn) :
    List (String × OpenTxn) :=
  if (lookupList m id).isSome
  then m.map (fun kv => if kv.1 == id then (id, v) else kv)
  else m ++ [(id, v)]

/-- In-place mutation of the open transaction stored under id (the Go
code writes through the pointer held in the map). -/
def updateTx (m : List (String × OpenTxn)) (id : String) (f : OpenTxn → OpenTxn) :
    List (String × OpenTxn) :=
  m.map (fun kv => if kv.1 == id then (kv.1, f kv.2) else kv)

/-- The character of one decimal digit. -/
def decDigitChar (d : Nat) : Char := Char.ofNat (48 + d)

/-- The decimal string of a natural number (the non-negative case of
strconv.Itoa). -/
def itoa (n : Nat) : String :=
  if n = 0 then ⟨[decDigitChar 0]⟩
  else ⟨(Nat.digits 10 n).reverse.map decDigitChar⟩

/-- strconv.Itoa on a Go int given as its 64-bit two's-complement bit
pattern: a pattern below 2^63 is the value itself and prints as plain
decimal; a pattern at or above 2^63 is the negative value c - 2^64 and
prints with a leading minus sign. -/
def itoa64 (c : Nat) : String :=
  if c < 2 ^ 63 then itoa c
  else ⟨'-' :: (Nat.digits 10 (2 ^ 64 - c)).reverse.map decDigitChar⟩

/-- Reset from transactions.go: bumps the spent counter and replaces
the open-transaction map with a fresh empty one. -/
def Reset (w : Wallet) : Option String × Wallet :=
  (none, { w with spentCounter := (w.spentCounter + 1) % 2 ^ 64, transactions := [] })

/-- RegisterTransaction from transactions.go: the id is the decimal
string of the transaction counter, the counter is incremented, and a
fresh open transaction holding the supplied transaction (and no
recorded inputs) is stored under the id.  The error is always nil. -/
def RegisterTransaction (w : Wallet) (t : WTxn) : String × Option String × Wallet :=
  let id := itoa64 w.transactionCounter
  (id, none,
    { w with
      transactionCounter := (w.transactionCounter + 1) % 2 ^ 64,
      transactions := insertTx w.transactions id { transaction := t, inputs := [] } })

/-- Shared shape of the component-adding operations of
transactions.go: look up the open transaction; unknown id returns an
error and changes nothing; otherwise append the item to the
corresponding list of the stored transaction. -/
def addComponent (w : Wallet) (id : String) (f : WTxn → WTxn) : Option String × Wallet :=
  match lookupTx w id with
  | none => (some "no transaction found for given id", w)
  | some _ =>
    (none, { w with transactions :=
        (updateTx w.transactions id (fun ot => { ot with transaction := f ot.transaction })) })

/-- AddMinerFee from transactions.go. -/
def AddMinerFee (w : Wallet) (id : String) (fee : Nat) : Option String × Wallet :=
  addComponent w id (fun t => { t with minerFees := t.minerFees ++ [fee] })

/-- AddOutput from transactions.go. -/
def AddOutput (w : Wallet) (id : String) (o : Output) : Option String × Wallet :=
  addComponent w id (fun t => { t with outputs := t.outputs ++ [o] })

/-- AddFileContract from transactions.go. -/
def AddFileContract (w : Wallet) (id : String) (fc : Nat) : Option String × Wallet :=
  addComponent w id (fun t => { t with fileContracts := t.fileContracts ++ [fc] })

/-- AddStorageProof from transactions.go. -/
def AddStorageProof (w : Wallet) (id : String) (sp : Nat) : Option String × Wallet :=
  addComponent w id (fun t => { t with storageProofs := t.storageProofs ++ [sp] })

/-- AddArbitraryData from transactions.go. -/
def AddArbitraryData (w : Wallet) (id : String) (arb : String) : Option String × Wallet :=
  addComponent w id (fun t => { t with arbitraryData := t.arbitraryData ++ [arb] })

/-- SignTransaction's effect on the modelled wallet fields: the open
transaction is removed from the map (signature assembly reads
spendableAddresses, outside the modelled state, and never touches the
counters). -/
def SignTransaction (w : Wallet) (id : String) : Wallet :=
  { w with transactions := w.transactions.filter (fun kv => !(kv.1 == id)) }

/-- One call on the wallet, for stating properties of call sequences. -/
inductive WalletOp
  | reset
  | register (t : WTxn)
  | addMinerFee (id : String) (fee : Nat)
  | addOutput (id : String) (o : Output)
  | addFileContract (id : String) (fc : Nat)
  | addStorageProof (id : String) (sp : Nat)
  | addArbitraryData (id : String) (arb : String)
  | sign (id : String)

/-- Run one wallet call, keeping the resulting state. -/
def runOp (w : Wallet) : WalletOp → Wallet
  | .reset => (Reset w).2
  | .register t => (RegisterTransaction w t).2.2
  | .addMinerFee id fee => (AddMinerFee w id fee).2
  | .addOutput id o => (AddOutput w id o).2
  | .addFileContract id fc => (AddFileContract w id fc).2
  | .addStorageProof id sp => (AddStorageProof w id sp).2
  | .addArbitraryData id arb => (AddArbitraryData w id arb).2
  | .sign id => SignTransaction w id

/-- The ids returned by the RegisterTransaction calls of a sequence. -/
def registeredIds (w : Wallet) : List WalletOp → List String
  | [] => []
  | op :: ops =>
    match op with
    | .register t => (RegisterTransaction w t).1 :: registeredIds (runOp w op) ops
    | _ => registeredIds (runOp w op) ops

/-- Looking up the updated id maps the stored entry through f. -/
theorem lookupList_updateTx (m : List (String × OpenTxn)) (id : String)
    (f : OpenTxn → OpenTxn) :
    lookupList (updateTx m id f) id = (lookupList m id).map f := by
  induction m with
  | nil => rfl
  | cons kv rest ih =>
    by_cases hkv : kv.1 = id
    · simp [updateTx, lookupList, hkv]
    · simpa [updateTx, lookupList, hkv] using ih

/-- Updating one id leaves lookups of other ids unchanged. -/
theorem lookupList_updateTx_ne (m : List (String × OpenTxn)) (id id' : String)
    (f : OpenTxn → OpenTxn) (h : id' ≠ id) :
    lookupList (updateTx m id f) id' = lookupList m id' := by
  induction m with
  | nil => rfl
  | cons kv rest ih =>
    by_cases hkv : kv.1 = id
    · have hne : ¬ id = id' := fun he => h he.symm
      simpa [updateTx, lookupList, hkv, hne] using ih
    · by_cases hkv' : kv.1 = id'
      · simp [updateTx, lookupList, hkv, hkv', h]
      · simpa [updateTx, lookupList, hkv, hkv'] using ih

/-- Replacing a present id is visible to a subsequent read. -/
theorem lookupList_map_replace (m : List (String × OpenTxn)) (id : String) (v : OpenTxn)
    (hp : (lookupList m id).isSome) :
    lookupList (m.map (fun kv => if kv.1 == id then (id, v) else kv)) id = some v := by
  induction m with
  | nil => simp [lookupList] at hp
  | cons kv rest ih =>
    by_cases hkv : kv.1 = id
    · simp [lookupList, hkv]
    · simp only [lookupList, hkv] at hp
      simp only [beq_iff_eq, hkv, if_false] at hp
      simp [lookupList, hkv]
      simpa using ih hp

/-- Adding an absent id at the end is visible to a subsequent read. -/
theorem lookupList_append_single (m : List (String × OpenTxn)) (id : String) (v : OpenTxn)
    (hp : lookupList m id = none) :
    lookupList (m ++ [(id, v)]) id = some v := by
  induction m with
  | nil => simp [lookupList]
  | cons kv rest ih =>
    by_cases hkv : kv.1 = id
    · simp [lookupList, hkv] at hp
    · simp only [lookupList, beq_iff_eq, hkv, if_false] at hp
      simp [lookupList, hkv]
      simpa using ih hp

/-- A Go map write is visible to a subsequent read of the same id. -/
theorem lookupList_insertTx_self (m : List (String × OpenTxn)) (id : String) (v : OpenTxn) :
    lookupList (insertTx m id v) id = some v := by
  unfold insertTx
  by_cases hp : (lookupList m id).isSome
  · rw [if_pos hp]
    exact lookupList_map_replace m id v hp
  · rw [if_neg hp]
    exact lookupList_append_single m id v (Option.not_isSome_iff_eq_none.mp hp)

/-- The component-adding operations keep both counters. -/
theorem addComponent_counters (w : Wallet) (id : String) (f : WTxn → WTxn) :
    (addComponent w id f).2.transactionCounter = w.transactionCounter ∧
    (addComponent w id f).2.spentCounter = w.spentCounter := by
  unfold addComponent
  cases lookupTx w id <;> exact ⟨rfl, rfl⟩

/-- Decimal digit characters are distinct for distinct digits. -/
theorem decDigitChar_inj : ∀ d1 < 10, ∀ d2 < 10,
    decDigitChar d1 = decDigitChar d2 → d1 = d2 := by decide

/-- Mapping decDigitChar over digit lists is injective. -/
theorem map_decDigitChar_inj : ∀ l1 l2 : List Nat, (∀ d ∈ l1, d < 10) → (∀ d ∈ l2, d < 10) →
    l1.map decDigitChar = l2.map decDigitChar → l1 = l2 := by
  intro l1
  induction l1 with
  | nil =>
    intro l2 _ _ h
    cases l2 with
    | nil => rfl
    | cons e es => simp at h
  | cons d ds ih =>
    intro l2 h1 h2 h
    cases l2 with
    | nil => simp at h
    | cons e es =>
      simp only [List.map_cons, List.cons.injEq] at h
      have hd : d = e := decDigitChar_inj d (h1 d (List.mem_cons_self d ds)) e
        (h2 e (List.mem_cons_self e es)) h.1
      rw [hd, ih es (fun x hx => h1 x (List.mem_cons_of_mem _ hx))
        (fun x hx => h2 x (List.mem_cons_of_mem _ hx)) h.2]

/-- The decimal string of a natural number determines the number. -/
theorem itoa_inj (m n : Nat) (h : itoa m = itoa n) : m = n := by
  have hbm : ∀ d ∈ (Nat.digits 10 m).reverse, d < 10 := fun d hd =>
    Nat.digits_lt_base (by norm_num) (List.mem_reverse.mp hd)
  have hbn : ∀ d ∈ (Nat.digits 10 n).reverse, d < 10 := fun d hd =>
    Nat.digits_lt_base (by norm_num) (List.mem_reverse.mp hd)
  unfold itoa at h
  by_cases hm : m = 0 <;> by_cases hn : n = 0
  · rw [hm, hn]
  · exfalso
    rw [if_pos hm, if_neg hn] at h
    have h' : [(0 : Nat)].map decDigitChar = (Nat.digits 10 n).reverse.map decDigitChar :=
      congrArg String.data h
    have h2 := map_decDigitChar_inj [0] _ (by simp) hbn h'
    have h3 : Nat.digits 10 n = [0] := by
      rw [← List.reverse_reverse (Nat.digits 10 n), ← h2]
      rfl
    have h4 := Nat.ofDigits_digits 10 n
    rw [h3] at h4
    simp [Nat.ofDigits] at h4
    exact hn h4.symm
  · exfalso
    rw [if_neg hm, if_pos hn] at h
    have h' : (Nat.digits 10 m).reverse.map decDigitChar = [(0 : Nat)].map decDigitChar :=
      congrArg String.data h
    have h2 := map_decDigitChar_inj _ [0] hbm (by simp) h'
    have h3 : Nat.digits 10 m = [0] := by
      rw [← List.reverse_reverse (Nat.digits 10 m), h2]
      rfl
    have h4 := Nat.ofDigits_digits 10 m
    rw [h3] at h4
    simp [Nat.ofDigits] at h4
    exact hm h4.symm
  · rw [if_neg hm, if_neg hn] at h
    have h' : (Nat.digits 10 m).reverse.map decDigitChar
        = (Nat.digits 10 n).reverse.map decDigitChar := congrArg String.data h
    have h2 := map_decDigitChar_inj _ _ hbm hbn h'
    have h3 : Nat.digits 10 m = Nat.digits 10 n := by
      rw [← List.reverse_reverse (Nat.digits 10 m), h2, List.reverse_reverse]
    have h4 := Nat.ofDigits_digits 10 m
    rw [h3, Nat.ofDigits_digits] at h4
    exact h4.symm

/-- Every character of itoa's output is a decimal digit character. -/
theorem itoa_chars (m : Nat) : ∀ ch ∈ (itoa m).data, ∃ d, d < 10 ∧ ch = decDigitChar d := by
  intro ch hch
  unfold itoa at hch
  by_cases hm : m = 0
  · rw [if_pos hm] at hch
    have hch' : ch ∈ [decDigitChar 0] := hch
    have hc0 : ch = decDigitChar 0 := by simpa using hch'
    exact ⟨0, by norm_num, hc0⟩
  · rw [if_neg hm] at hch
    have hch' : ch ∈ (Nat.digits 10 m).reverse.map decDigitChar := hch
    obtain ⟨d, hd, hdc⟩ := List.mem_map.mp hch'
    exact ⟨d, Nat.digits_lt_base (by norm_num) (List.mem_reverse.mp hd), hdc.symm⟩

/-- No decimal digit character is the minus sign. -/
theorem decDigitChar_ne_dash : ∀ d < 10, decDigitChar d ≠ '-' := by decide

/-- itoa output never starts with a minus sign. -/
theorem itoa_ne_dash_cons (c : Nat) (l : List Char) : itoa c ≠ ⟨'-' :: l⟩ := by
  intro h
  have hm : '-' ∈ (itoa c).data := by
    have hd : (itoa c).data = '-' :: l := congrArg String.data h
    rw [hd]
    exact List.mem_cons_self _ _
  obtain ⟨d, hd10, hdc⟩ := itoa_chars c '-' hm
  exact decDigitChar_ne_dash d hd10 hdc.symm

/-- Two distinct 64-bit counter bit patterns print differently under
the signed Itoa. -/
theorem itoa64_inj : ∀ c1, c1 < 2 ^ 64 → ∀ c2, c2 < 2 ^ 64 →
    itoa64 c1 = itoa64 c2 → c1 = c2 := by
  intro c1 h1 c2 h2 h
  unfold itoa64 at h
  by_cases ha : c1 < 2 ^ 63 <;> by_cases hb : c2 < 2 ^ 63
  · rw [if_pos ha, if_pos hb] at h
    exact itoa_inj _ _ h
  · rw [if_pos ha, if_neg hb] at h
    exact absurd h (itoa_ne_dash_cons _ _)
  · rw [if_neg ha, if_pos hb] at h
    exact absurd h.symm (itoa_ne_dash_cons _ _)
  · rw [if_neg ha, if_neg hb] at h
    have hd' : ('-' :: (Nat.digits 10 (2 ^ 64 - c1)).reverse.map decDigitChar)
        = ('-' :: (Nat.digits 10 (2 ^ 64 - c2)).reverse.map decDigitChar) :=
      congrArg String.data h
    rw [List.cons.injEq] at hd'
    have hmm := map_decDigitChar_inj _ _
      (fun d hd => Nat.digits_lt_base (by norm_num) (List.mem_reverse.mp hd))
      (fun d hd => Nat.digits_lt_base (by norm_num) (List.mem_reverse.mp hd)) hd'.2
    have hdig : Nat.digits 10 (2 ^ 64 - c1) = Nat.digits 10 (2 ^ 64 - c2) := by
      rw [← List.reverse_reverse (Nat.digits 10 (2 ^ 64 - c1)), hmm, List.reverse_reverse]
    have hsub : 2 ^ 64 - c2 = 2 ^ 64 - c1 := by
      have e1 := Nat.ofDigits_digits 10 (2 ^ 64 - c1)
      rw [hdig, Nat.ofDigits_digits] at e1
      exact e1
    have hfin : 2 ^ 64 - (2 ^ 64 - c1) = 2 ^ 64 - (2 ^ 64 - c2) := by rw [hsub]
    rwa [Nat.sub_sub_self (Nat.le_of_lt h1), Nat.sub_sub_self (Nat.le_of_lt h2)] at hfin

/-- The number of RegisterTransaction calls in an op sequence. -/
def regCount : List WalletOp → Nat
  | [] => 0
  | op :: ops =>
    match op with
    | .register _ => regCount ops + 1
    | _ => regCount ops

/-- regCount of a run of register calls. -/
theorem regCount_replicate (n : Nat) (t : WTxn) :
    regCount (List.replicate n (WalletOp.register t)) = n := by
  induction n with
  | zero => rfl
  | succ n ih =>
    rw [List.replicate_succ]
    show regCount (List.replicate n (WalletOp.register t)) + 1 = n + 1
    rw [ih]

/-- The ids returned by the register calls of a sequence are the
signed decimal strings of the successive wrapped counter values. -/
theorem registeredIds_eq : ∀ (ops : List WalletOp) (w : Wallet),
    w.transactionCounter < 2 ^ 64 →
    registeredIds w ops = (List.range (regCount ops)).map
      (fun i => itoa64 ((w.transactionCounter + i) % 2 ^ 64)) := by
  intro ops
  induction ops with
  | nil => exact fun w _ => rfl
  | cons op ops ih =>
    intro w hb
    cases op with
    | register t =>
      have hstep : registeredIds w (WalletOp.register t :: ops)
          = itoa64 w.transactionCounter
            :: registeredIds (runOp w (WalletOp.register t)) ops := rfl
      have hcnt : (runOp w (WalletOp.register t)).transactionCounter
          = (w.transactionCounter + 1) % 2 ^ 64 := rfl
      rw [hstep, ih (runOp w (WalletOp.register t))
        (by rw [hcnt]; exact Nat.mod_lt _ (by norm_num)), hcnt]
      have hrc : regCount (WalletOp.register t :: ops) = regCount ops + 1 := rfl
      rw [hrc, List.range_succ_eq_map, List.map_cons, List.map_map]
      congr 1
      · rw [Nat.add_zero, Nat.mod_eq_of_lt hb]
      · apply List.map_congr_left
        intro i _
        show itoa64 (((w.transactionCounter + 1) % 2 ^ 64 + i) % 2 ^ 64)
          = itoa64 ((w.transactionCounter + Nat.succ i) % 2 ^ 64)
        rw [Nat.mod_add_mod]
        congr 1
        omega
    | reset => exact ih _ hb
    | addMinerFee id' fee =>
      have hc : (runOp w (WalletOp.addMinerFee id' fee)).transactionCounter
          = w.transactionCounter := (addComponent_counters w id' _).1
      have h' := ih (runOp w (WalletOp.addMinerFee id' fee)) (by rw [hc]; exact hb)
      rw [hc] at h'
      exact h'
    | addOutput id' o =>
      have hc : (runOp w (WalletOp.addOutput id' o)).transactionCounter
          = w.transactionCounter := (addComponent_counters w id' _).1
      have h' := ih (runOp w (WalletOp.addOutput id' o)) (by rw [hc]; exact hb)
      rw [hc] at h'
      exact h'
    | addFileContract id' fc =>
      have hc : (runOp w (WalletOp.addFileContract id' fc)).transactionCounter
          = w.transactionCounter := (addComponent_counters w id' _).1
      have h' := ih (runOp w (WalletOp.addFileContract id' fc)) (by rw [hc]; exact hb)
      rw [hc] at h'
      exact h'
    | addStorageProof id' sp =>
      have hc : (runOp w (WalletOp.addStorageProof id' sp)).transactionCounter
          = w.transactionCounter := (addComponent_counters w id' _).1
      have h' := ih (runOp w (WalletOp.addStorageProof id' sp)) (by rw [hc]; exact hb)
      rw [hc] at h'
      exact h'
    | addArbitraryData id' arb =>
      have hc : (runOp w (WalletOp.addArbitraryData id' arb)).transactionCounter
          = w.transactionCounter := (addComponent_counters w id' _).1
      have h' := ih (runOp w (WalletOp.addArbitraryData id' arb)) (by rw [hc]; exact hb)
      rw [hc] at h'
      exact h'
    | sign id' => exact ih _ hb

/-- As long as the counter does not wrap (at most 2^64 register calls),
the returned ids are pairwise distinct. -/
theorem registeredIds_nodup_of_le (w : Wallet) (ops : List WalletOp)
    (hb : w.transactionCounter < 2 ^ 64) (hk : regCount ops ≤ 2 ^ 64) :
    (registeredIds w ops).Nodup := by
  rw [registeredIds_eq ops w hb]
  apply List.Nodup.map_on ?_ (List.nodup_range _)
  intro i hi j hj hf
  rw [List.mem_range] at hi hj
  have h1 : (w.transactionCounter + i) % 2 ^ 64 = (w.transactionCounter + j) % 2 ^ 64 :=
    itoa64_inj _ (Nat.mod_lt _ (by norm_num)) _ (Nat.mod_lt _ (by norm_num)) hf
  have h2 : i % 2 ^ 64 = j % 2 ^ 64 :=
    Nat.ModEq.add_left_cancel' w.transactionCounter h1
  rw [Nat.mod_eq_of_lt (Nat.lt_of_lt_of_le hi hk),
    Nat.mod_eq_of_lt (Nat.lt_of_lt_of_le hj hk)] at h2
  exact h2

/-- The shared behavior of the five component-adding operations. -/
theorem addComponent_spec (w : Wallet) (id : String) (f : WTxn → WTxn) :
    ((addComponent w id f).1.isSome ↔ lookupTx w id = none) ∧
    (lookupTx w id = none → (addComponent w id f).2 = w) ∧
    (∀ ot, lookupTx w id = some ot →
      (addComponent w id f).1 = none ∧
      lookupTx (addComponent w id f).2 id = some { ot with transaction := f ot.transaction } ∧
      (∀ id', id' ≠ id → lookupTx (addComponent w id f).2 id' = lookupTx w id') ∧
      (addComponent w id f).2.transactionCounter = w.transactionCounter ∧
      (addComponent w id f).2.spentCounter = w.spentCounter) := by
  cases hc : lookupTx w id with
  | none =>
    have ha : addComponent w id f = (some "no transaction found for given id", w) := by
      unfold addComponent
      rw [hc]
    rw [ha]
    refine ⟨by simp, fun _ => rfl, ?_⟩
    intro ot hot
    exact Option.noConfusion hot
  | some ot0 =>
    have ha : addComponent w id f = (none, { w with transactions :=
        (updateTx w.transactions id
          (fun ot => { ot with transaction := f ot.transaction })) }) := by
      unfold addComponent
      rw [hc]
    rw [ha]
    refine ⟨by simp, fun hno => Option.noConfusion hno, ?_⟩
    intro ot hot
    have hot0 : ot0 = ot := Option.some.inj hot
    subst hot0
    refine ⟨rfl, ?_, ?_, rfl, rfl⟩
    · show lookupList (updateTx w.transactions id
          (fun ot => { ot with transaction := f ot.transaction })) id
        = some { ot0 with transaction := f ot0.transaction }
      rw [lookupList_updateTx,
        show lookupList w.transactions id = some ot0 from hc]
      rfl
    · intro id' hne
      show lookupList (updateTx w.transactions id
          (fun ot => { ot with transaction := f ot.transaction })) id' = lookupTx w id'
      rw [lookupList_updateTx_ne _ _ _ _ hne]
      rfl

/-- C9: each of AddMinerFee, AddOutput, AddFileContract,
AddStorageProof and AddArbitraryData returns an error exactly when no
open transaction is registered under the id; on error the wallet state
is unchanged; on success exactly the supplied item is appended to the
corresponding list of that open transaction, other ids and both
counters are untouched. -/
theorem wallet_component_add_spec (w : Wallet) (id : String) (fee : Nat) (o : Output)
    (fc : Nat) (sp : Nat) (arb : String) :
    (((AddMinerFee w id fee).1.isSome ↔ lookupTx w id = none) ∧
      (lookupTx w id = none → (AddMinerFee w id fee).2 = w) ∧
      (∀ ot, lookupTx w id = some ot →
        (AddMinerFee w id fee).1 = none ∧
        lookupTx (AddMinerFee w id fee).2 id = some { ot with transaction :=
          { ot.transaction with minerFees := ot.transaction.minerFees ++ [fee] } } ∧
        (∀ id', id' ≠ id → lookupTx (AddMinerFee w id fee).2 id' = lookupTx w id') ∧
        (AddMinerFee w id fee).2.transactionCounter = w.transactionCounter ∧
        (AddMinerFee w id fee).2.spentCounter = w.spentCounter)) ∧
    (((AddOutput w id o).1.isSome ↔ lookupTx w id = none) ∧
      (lookupTx w id = none → (AddOutput w id o).2 = w) ∧
      (∀ ot, lookupTx w id = some ot →
        (AddOutput w id o).1 = none ∧
        lookupTx (AddOutput w id o).2 id = some { ot with transaction :=
          { ot.transaction with outputs := ot.transaction.outputs ++ [o] } } ∧
        (∀ id', id' ≠ id → lookupTx (AddOutput w id o).2 id' = lookupTx w id') ∧
        (AddOutput w id o).2.transactionCounter = w.transactionCounter ∧
        (AddOutput w id o).2.spentCounter = w.spentCounter)) ∧
    (((AddFileContract w id fc).1.isSome ↔ lookupTx w id = none) ∧
      (lookupTx w id = none → (AddFileContract w id fc).2 = w) ∧
      (∀ ot, lookupTx w id = some ot →
        (AddFileContract w id fc).1 = none ∧
        lookupTx (AddFileContract w id fc).2 id = some { ot with transaction :=
          { ot.transaction with fileContracts := ot.transaction.fileContracts ++ [fc] } } ∧
        (∀ id', id' ≠ id → lookupTx (AddFileContract w id fc).2 id' = lookupTx w id') ∧
        (AddFileContract w id fc).2.transactionCounter = w.transactionCounter ∧
        (AddFileContract w id fc).2.spentCounter = w.spentCounter)) ∧
    (((AddStorageProof w id sp).1.isSome ↔ lookupTx w id = none) ∧
      (lookupTx w id = none → (AddStorageProof w id sp).2 = w) ∧
      (∀ ot, lookupTx w id = some ot →
        (AddStorageProof w id sp).1 = none ∧
        lookupTx (AddStorageProof w id sp).2 id = some { ot with transaction :=
          { ot.transaction with storageProofs := ot.transaction.storageProofs ++ [sp] } } ∧
        (∀ id', id' ≠ id → lookupTx (AddStorageProof w id sp).2 id' = lookupTx w id') ∧
        (AddStorageProof w id sp).2.transactionCounter = w.transactionCounter ∧
        (AddStorageProof w id sp).2.spentCounter = w.spentCounter)) ∧
    (((AddArbitraryData w id arb).1.isSome ↔ lookupTx w id = none) ∧
      (lookupTx w id = none → (AddArbitraryData w id arb).2 = w) ∧
      (∀ ot, lookupTx w id = some ot →
        (AddArbitraryData w id arb).1 = none ∧
        lookupTx (AddArbitraryData w id arb).2 id = some { ot with transaction :=
          { ot.transaction with arbitraryData := ot.transaction.arbitraryData ++ [arb] } } ∧
        (∀ id', id' ≠ id → lookupTx (AddArbitraryData w id arb).2 id' = lookupTx w id') ∧
        (AddArbitraryData w id arb).2.transactionCounter = w.transactionCounter ∧
        (AddArbitraryData w id arb).2.spentCounter = w.spentCounter)) :=
  ⟨addComponent_spec w id _, addComponent_spec w id _, addComponent_spec w id _,
    addComponent_spec w id _, addComponent_spec w id _⟩

/-- An example wallet holding one open transaction under id "0". -/
def wExample : Wallet :=
  { transactionCounter := 1, spentCounter := 0,
    transactions := [("0", { transaction :=
      { inputs := [], minerFees := [], outputs := [], fileContracts := [],
        storageProofs := [], arbitraryData := [], signatures := [] }, inputs := [] })] }

/-- The open transaction stored in wExample. -/
def otExample : OpenTxn :=
  { transaction :=
      { inputs := [], minerFees := [], outputs := [], fileContracts := [],
        storageProofs := [], arbitraryData := [], signatures := [] }, inputs := [] }

/-- Witness for C9: a known id succeeds and appends the fee; an
unknown id errors and leaves the wallet unchanged. -/
theorem wallet_component_add_spec_witness :
    lookupTx wExample "0" = some otExample ∧
    (AddMinerFee wExample "0" 5).1 = none ∧
    lookupTx (AddMinerFee wExample "0" 5).2 "0" = some { otExample with transaction :=
      { otExample.transaction with minerFees := otExample.transaction.minerFees ++ [5] } } ∧
    lookupTx wExample "1" = none ∧
    (AddOutput wExample "1" { value := 1, spendHash := 2 }).1.isSome = true ∧
    (AddOutput wExample "1" { value := 1, spendHash := 2 }).2 = wExample := by
  have h0 : lookupTx wExample "0" = some otExample := by decide
  have h1 : lookupTx wExample "1" = none := by decide
  have hm := ((wallet_component_add_spec wExample "0" 5 { value := 1, spendHash := 2 }
    0 0 "x").1).2.2 otExample h0
  have ho := (wallet_component_add_spec wExample "1" 5 { value := 1, spendHash := 2 }
    0 0 "x").2.1
  exact ⟨h0, hm.1, hm.2.1, h1, ho.1.mpr h1, ho.2.1 h1⟩

/-- A fresh wallet: counters zero, no open transactions. -/
def wFresh : Wallet :=
  { transactionCounter := 0, spentCounter := 0, transactions := [] }

/-- An empty transaction for exercising RegisterTransaction. -/
def tEmpty : WTxn :=
  { inputs := [], minerFees := [], outputs := [], fileContracts := [],
    storageProofs := [], arbitraryData := [], signatures := [] }

/-- C10 (counterexample): the register-returned ids are NOT pairwise
distinct for every call sequence.  The counter is a Go int, which
wraps: after 2^64 register calls from a fresh wallet the counter has
returned to 0, so the 2^64+1st id repeats the first one. -/
theorem register_distinct_counterexample :
    ¬ (registeredIds wFresh (List.replicate (2 ^ 64 + 1) (WalletOp.register tEmpty))).Nodup := by
  intro h
  rw [registeredIds_eq _ _ (by decide), regCount_replicate] at h
  have hp := (List.pairwise_iff_getElem.mp h) 0 (2 ^ 64)
    (by rw [List.length_map, List.length_range]; omega)
    (by rw [List.length_map, List.length_range]; omega)
    (by omega)
  apply hp
  simp only [List.getElem_map, List.getElem_range]
  show itoa64 ((0 + 0) % 2 ^ 64) = itoa64 ((0 + 2 ^ 64) % 2 ^ 64)
  rw [Nat.add_zero, Nat.zero_add, Nat.zero_mod, Nat.mod_self]

/-- C10 (amended): RegisterTransaction never fails; it returns the
decimal string (Go Itoa of the signed 64-bit value) of the wallet's
transaction counter, increments the counter modulo 2^64, and stores a
fresh open transaction (the supplied transaction, empty recorded-input
list) under the id; the ids returned by the register calls of a call
sequence are pairwise distinct whenever the sequence performs at most
2^64 register calls, so that the counter does not wrap back onto a
value already used. -/
theorem register_transaction_spec :
    (∀ (w : Wallet) (t : WTxn),
      (RegisterTransaction w t).1 = itoa64 w.transactionCounter ∧
      (RegisterTransaction w t).2.1 = none ∧
      (RegisterTransaction w t).2.2.transactionCounter = (w.transactionCounter + 1) % 2 ^ 64 ∧
      lookupTx (RegisterTransaction w t).2.2 (RegisterTransaction w t).1
        = some { transaction := t, inputs := [] }) ∧
    (∀ (w : Wallet) (ops : List WalletOp), w.transactionCounter < 2 ^ 64 →
      regCount ops ≤ 2 ^ 64 → (registeredIds w ops).Nodup) := by
  constructor
  · intro w t
    refine ⟨rfl, rfl, rfl, ?_⟩
    show lookupList (insertTx w.transactions (itoa64 w.transactionCounter)
        { transaction := t, inputs := [] }) (itoa64 w.transactionCounter)
      = some { transaction := t, inputs := [] }
    exact lookupList_insertTx_self _ _ _
  · intro w ops hb hk
    exact registeredIds_nodup_of_le w ops hb hk

/-- Witness for the amended C10: two register calls on a fresh wallet
yield distinct ids, and the per-call behavior at the fresh wallet. -/
theorem register_transaction_spec_witness :
    wFresh.transactionCounter < 2 ^ 64 ∧
    regCount [WalletOp.register tEmpty, WalletOp.register tEmpty] ≤ 2 ^ 64 ∧
    (registeredIds wFresh [WalletOp.register tEmpty, WalletOp.register tEmpty]).Nodup ∧
    (RegisterTransaction wFresh tEmpty).1 = itoa64 wFresh.transactionCounter ∧
    (RegisterTransaction wFresh tEmpty).2.1 = none := by
  have hcall := (register_transaction_spec.1 wFresh tEmpty)
  exact ⟨by decide, by decide,
    register_transaction_spec.2 wFresh _ (by decide) (by decide), hcall.1, hcall.2.1⟩

end SiaWallet
